import Mathlib

/-!
Verification development for the oasis-core MKVS (Merklized Key-Value Store).

The repository excerpt under verification ships the MKVS test suite
(`go/storage/mkvs/tree_test.go`) but not the tree engine, node database or
syncer implementation themselves; those components are therefore modelled
here from the specification (spec.md sections 3, 4 and 8), with the test
suite used as the authority on observable behaviour wherever the two
disagree.  All definitions are executable.
-/

namespace MKVS

/-- Byte strings: opaque values and byte-level keys (spec section 3). -/
abbrev Bytes := List Nat

/-- Bit-level keys: keys are interpreted bitwise, most-significant bit
first, for traversal (spec section 3, "Key"). -/
abbrev BKey := List Bool

/-- Modelled from the spec (section 3, "Node"): the missing tree-engine node
type.  A node is polymorphic over {Internal, Leaf}: an internal node holds a
label (bit string), an optional inline leaf for the key that ends exactly at
this node's position, and left/right children which may be null (`nnil`); a
leaf node holds the full key and the value.  Creation versions and cached
digests are not represented: by spec invariant 1 the digest is a pure
function of labels, children and values, so they carry no extra state. -/
inductive NTree where
  | nnil : NTree
  | nleaf (key : BKey) (value : Bytes) : NTree
  | nint (label : BKey) (inl : Option (BKey × Bytes)) (l r : NTree) : NTree
deriving DecidableEq, Repr

/-- Left-biased choice on optional lookup results. -/
def oalt (a b : Option Bytes) : Option Bytes :=
  match a with
  | some v => some v
  | none => b

/-- Lookup of a key in an optional inline leaf. -/
def inlLook (inl : Option (BKey × Bytes)) (k : BKey) : Option Bytes :=
  match inl with
  | some (ik, iv) => if k = ik then some iv else none
  | none => none

/-- The final key-to-value mapping denoted by a tree: a key maps to the
value of the (unique, on well-formed trees) leaf that stores it.  This is
the "final `(key → value)` mapping" of spec section 8, property 1. -/
def sem : NTree → BKey → Option Bytes
  | .nnil, _ => none
  | .nleaf k' v, k => if k = k' then some v else none
  | .nint _ inl l r, k =>
      oalt (inlLook inl k) (oalt (sem l k) (sem r k))

/-- Longest common prefix of two bit strings. -/
def lcp : BKey → BKey → BKey
  | a :: as, b :: bs => if a = b then a :: lcp as bs else []
  | _, _ => []

/-- Modelled from the spec (section 4.2, "Algorithm: insert / remove on the
binary trie"): the missing tree-engine insert.  Traversal compares the
key's bits (from bit position `d`) against the internal node's label; on a
full label match it recurses into the child selected by the next bit, on a
partial match it splits the node at the divergence bit, and a key exhausted
exactly at a node's position becomes the node's inline leaf. -/
def insertGo (k : BKey) (v : Bytes) : NTree → Nat → NTree
  | .nnil, _ => .nleaf k v
  | .nleaf k' v', d =>
      if k = k' then .nleaf k v
      else
        let c := lcp (k.drop d) (k'.drop d)
        match k.drop (d + c.length), k'.drop (d + c.length) with
        | [], [] => .nleaf k v
        | [], true :: _ => .nint c (some (k, v)) .nnil (.nleaf k' v')
        | [], false :: _ => .nint c (some (k, v)) (.nleaf k' v') .nnil
        | true :: _, [] => .nint c (some (k', v')) .nnil (.nleaf k v)
        | false :: _, [] => .nint c (some (k', v')) (.nleaf k v) .nnil
        | true :: _, _ :: _ => .nint c none (.nleaf k' v') (.nleaf k v)
        | false :: _, _ :: _ => .nint c none (.nleaf k v) (.nleaf k' v')
  | .nint lab inl l r, d =>
      if lab.isPrefixOf (k.drop d) then
        match k.drop (d + lab.length) with
        | [] => .nint lab (some (k, v)) l r
        | true :: _ => .nint lab inl l (insertGo k v r (d + lab.length + 1))
        | false :: _ => .nint lab inl (insertGo k v l (d + lab.length + 1)) r
      else
        let c := lcp (k.drop d) lab
        match lab.drop c.length, k.drop (d + c.length) with
        | [], _ => .nleaf k v
        | true :: lab', [] => .nint c (some (k, v)) .nnil (.nint lab' inl l r)
        | false :: lab', [] => .nint c (some (k, v)) (.nint lab' inl l r) .nnil
        | true :: lab', _ :: _ => .nint c none (.nleaf k v) (.nint lab' inl l r)
        | false :: lab', _ :: _ => .nint c none (.nint lab' inl l r) (.nleaf k v)

/-- Modelled from the spec (section 4.2): canonicalization after removal.
"If a remaining subtree is an only-child of an internal node with no inline
leaf, collapse by concatenating labels"; an internal node left with only its
inline leaf becomes that leaf, and one left with nothing becomes empty. -/
def canonInt (lab : BKey) (inl : Option (BKey × Bytes)) (l r : NTree) : NTree :=
  match inl, l, r with
  | none, .nnil, .nnil => .nnil
  | some (ik, iv), .nnil, .nnil => .nleaf ik iv
  | none, .nint lab2 inl2 l2 r2, .nnil => .nint (lab ++ false :: lab2) inl2 l2 r2
  | none, .nleaf k v, .nnil => .nleaf k v
  | none, .nnil, .nint lab2 inl2 l2 r2 => .nint (lab ++ true :: lab2) inl2 l2 r2
  | none, .nnil, .nleaf k v => .nleaf k v
  | _, _, _ => .nint lab inl l r

/-- Modelled from the spec (section 4.2): the missing tree-engine removal.
"Removal is the inverse: drop the leaf", then canonicalize the node. -/
def removeGo (k : BKey) : NTree → Nat → NTree
  | .nnil, _ => .nnil
  | .nleaf k' v', _ => if k = k' then .nnil else .nleaf k' v'
  | .nint lab inl l r, d =>
      if lab.isPrefixOf (k.drop d) then
        match k.drop (d + lab.length) with
        | [] =>
            canonInt lab
              (match inl with
               | some (ik, iv) => if k = ik then none else some (ik, iv)
               | none => none) l r
        | true :: _ => canonInt lab inl l (removeGo k r (d + lab.length + 1))
        | false :: _ => canonInt lab inl (removeGo k l (d + lab.length + 1)) r
      else .nint lab inl l r

/-- Modelled from the spec (section 4.2): the missing tree-engine lookup,
descending by label comparison exactly like insert, returning the inline
leaf when the key ends at a node's position. -/
def getGo (k : BKey) : NTree → Nat → Option Bytes
  | .nnil, _ => none
  | .nleaf k' v, _ => if k = k' then some v else none
  | .nint lab inl l r, d =>
      if lab.isPrefixOf (k.drop d) then
        match k.drop (d + lab.length) with
        | [] =>
            match inl with
            | some (ik, iv) => if k = ik then some iv else none
            | none => none
        | true :: _ => getGo k r (d + lab.length + 1)
        | false :: _ => getGo k l (d + lab.length + 1)
      else none

/-- Number of occupied slots (inline leaf, left child, right child) of an
internal node's component list. -/
def occ (inl : Option (BKey × Bytes)) (l r : NTree) : Nat :=
  (if inl.isSome then 1 else 0) + (if l = .nnil then 0 else 1) +
    (if r = .nnil then 0 else 1)

/-- Structural well-formedness of a tree hanging at bit path `p` (spec
section 3, invariants 2 and 3): a leaf's full key extends the path, an
inline leaf's key is exactly the path up to and including the node's label,
and every internal node keeps at least two occupied slots (otherwise it
would have been collapsed). -/
def wfB : BKey → NTree → Bool
  | _, .nnil => true
  | p, .nleaf k _ => p.isPrefixOf k
  | p, .nint lab inl l r =>
      (match inl with
       | some (ik, _) => decide (ik = p ++ lab)
       | none => true)
      && wfB (p ++ lab ++ [false]) l && wfB (p ++ lab ++ [true]) r
      && decide (2 ≤ occ inl l r)

/-- Bits of one byte, most-significant bit first (spec section 3, "Key"). -/
def byteBits (b : Nat) : List Bool :=
  [b.testBit 7, b.testBit 6, b.testBit 5, b.testBit 4,
   b.testBit 3, b.testBit 2, b.testBit 1, b.testBit 0]

/-- A byte-level key as its traversal bit string. -/
def keyBits (k : Bytes) : BKey :=
  k.foldr (fun b acc => byteBits b ++ acc) []

end MKVS

namespace MKVS

/-! ### Prefix and longest-common-prefix toolkit -/

theorem pref_drop {a b : BKey} (h : a <+: b) : a ++ b.drop a.length = b := by
  obtain ⟨t, rfl⟩ := h
  simp [List.drop_left]

theorem pref_eq_of_len {x y z : BKey} (hx : x <+: z) (hy : y <+: z)
    (hl : x.length = y.length) : x = y := by
  rcases List.prefix_or_prefix_of_prefix hx hy with h | h
  · exact h.eq_of_length hl
  · exact (h.eq_of_length hl.symm).symm

theorem bit_conflict {q k : BKey} (h1 : q ++ [false] <+: k)
    (h2 : q ++ [true] <+: k) : False := by
  obtain ⟨t1, e1⟩ := h1
  obtain ⟨t2, e2⟩ := h2
  rw [← e2] at e1
  simp at e1

theorem lcp_pl : ∀ s t : BKey, lcp s t <+: s := by
  intro s
  induction s with
  | nil => intro t; cases t <;> simp [lcp]
  | cons a as ih =>
      intro t
      cases t with
      | nil => simp [lcp]
      | cons b bs =>
          by_cases hab : a = b
          · simpa [lcp, hab] using ih bs
          · simp [lcp, hab]

theorem lcp_pr : ∀ s t : BKey, lcp s t <+: t := by
  intro s
  induction s with
  | nil => intro t; cases t <;> simp [lcp]
  | cons a as ih =>
      intro t
      cases t with
      | nil => simp [lcp]
      | cons b bs =>
          by_cases hab : a = b
          · subst hab
            simpa [lcp] using ih bs
          · simp [lcp, hab]

theorem lcp_neq : ∀ (s t : BKey) (a b : Bool) (as bs : BKey),
    s.drop (lcp s t).length = a :: as → t.drop (lcp s t).length = b :: bs →
    a ≠ b := by
  intro s
  induction s with
  | nil => intro t a b as bs h1 _; simp [lcp] at h1
  | cons x xs ih =>
      intro t a b as bs h1 h2
      cases t with
      | nil => simp [lcp] at h2
      | cons y ys =>
          by_cases hxy : x = y
          · subst hxy
            simp only [lcp, if_pos rfl, List.length_cons, List.drop_succ_cons] at h1 h2
            exact ih ys a b as bs h1 h2
          · simp only [lcp, if_neg hxy, List.length_nil, List.drop_zero] at h1 h2
            cases h1
            cases h2
            exact hxy

/-! ### Semantic region lemmas for well-formed trees -/

theorem oalt_some {a b : Option Bytes} {v : Bytes} (h : oalt a b = some v) :
    a = some v ∨ (a = none ∧ b = some v) := by
  cases a <;> simp_all [oalt]

theorem oalt_none_left {b : Option Bytes} : oalt none b = b := rfl

theorem wf_int_iff {p lab : BKey} {inl : Option (BKey × Bytes)} {l r : NTree} :
    wfB p (.nint lab inl l r) = true ↔
      (∀ ik iv, inl = some (ik, iv) → ik = p ++ lab) ∧
      wfB (p ++ lab ++ [false]) l = true ∧ wfB (p ++ lab ++ [true]) r = true ∧
      2 ≤ occ inl l r := by
  cases inl with
  | none => simp [wfB, and_assoc]
  | some piv =>
      cases piv with
      | mk ik iv => simp [wfB, and_assoc]

theorem sem_pref : ∀ (t : NTree) (p k : BKey) (v : Bytes),
    wfB p t = true → sem t k = some v → p <+: k := by
  intro t
  induction t with
  | nnil => intro p k v _ h; simp [sem] at h
  | nleaf k' v' =>
      intro p k v hwf h
      simp only [sem] at h
      split at h
      · next heq => subst heq; exact List.isPrefixOf_iff_prefix.mp hwf
      · cases h
  | nint lab inl l r ihl ihr =>
      intro p k v hwf h
      obtain ⟨hinl, hl, hr, _⟩ := wf_int_iff.mp hwf
      simp only [sem] at h
      rcases oalt_some h with h1 | ⟨_, h2⟩
      · cases inl with
        | none => simp [inlLook] at h1
        | some piv =>
            obtain ⟨ik, iv⟩ := piv
            simp only [inlLook] at h1
            split at h1
            · next heq =>
                rw [heq, hinl ik iv rfl]
                exact (List.prefix_append p lab)
            · cases h1
      · rcases oalt_some h2 with h3 | ⟨_, h4⟩
        · have := ihl (p ++ lab ++ [false]) k v hl h3
          exact ((List.prefix_append p lab).trans (List.prefix_append _ [false])).trans this
        · have := ihr (p ++ lab ++ [true]) k v hr h4
          exact ((List.prefix_append p lab).trans (List.prefix_append _ [true])).trans this

theorem sem_int_pref {p lab : BKey} {inl : Option (BKey × Bytes)} {l r : NTree}
    {k : BKey} {v : Bytes} (hwf : wfB p (.nint lab inl l r) = true)
    (h : sem (.nint lab inl l r) k = some v) : p ++ lab <+: k := by
  obtain ⟨hinl, hl, hr, _⟩ := wf_int_iff.mp hwf
  simp only [sem] at h
  rcases oalt_some h with h1 | ⟨_, h2⟩
  · cases inl with
    | none => simp [inlLook] at h1
    | some piv =>
        obtain ⟨ik, iv⟩ := piv
        simp only [inlLook] at h1
        split at h1
        · next heq => rw [heq, hinl ik iv rfl]
        · cases h1
  · rcases oalt_some h2 with h3 | ⟨_, h4⟩
    · exact (List.prefix_append _ [false]).trans (sem_pref l _ k v hl h3)
    · exact (List.prefix_append _ [true]).trans (sem_pref r _ k v hr h4)

end MKVS

namespace MKVS

theorem sem_nonempty : ∀ (t : NTree) (p : BKey), t ≠ .nnil → wfB p t = true →
    ∃ k v, sem t k = some v := by
  intro t
  induction t with
  | nnil => intro p h _; exact absurd rfl h
  | nleaf k' v' => intro p _ _; exact ⟨k', v', by simp [sem]⟩
  | nint lab inl l r ihl ihr =>
      intro p _ hwf
      obtain ⟨hinl, hl, hr, hocc⟩ := wf_int_iff.mp hwf
      cases inl with
      | some piv =>
          obtain ⟨ik, iv⟩ := piv
          exact ⟨ik, iv, by simp [sem, inlLook, oalt]⟩
      | none =>
          have hlne : l ≠ .nnil := by
            intro hln
            by_cases hrn : r = .nnil <;> simp [occ, hln, hrn] at hocc
          obtain ⟨k, v, hk⟩ := ihl (p ++ lab ++ [false]) hlne hl
          exact ⟨k, v, by simp [sem, inlLook, oalt, hk]⟩

theorem sem_at_node {p lab : BKey} {inl : Option (BKey × Bytes)} {l r : NTree}
    (hwf : wfB p (.nint lab inl l r) = true) :
    sem (.nint lab inl l r) (p ++ lab) = inlLook inl (p ++ lab) := by
  obtain ⟨hinl, hl, hr, _⟩ := wf_int_iff.mp hwf
  have hlnone : sem l (p ++ lab) = none := by
    cases hsl : sem l (p ++ lab) with
    | none => rfl
    | some v =>
        have := (sem_pref l _ _ _ hl hsl).length_le
        simp at this
  have hrnone : sem r (p ++ lab) = none := by
    cases hsr : sem r (p ++ lab) with
    | none => rfl
    | some v =>
        have := (sem_pref r _ _ _ hr hsr).length_le
        simp at this
  cases hi : inlLook inl (p ++ lab) with
  | some v => simp [sem, hi, oalt]
  | none => simp [sem, hi, oalt, hlnone, hrnone]

theorem sem_int_left {p lab : BKey} {inl : Option (BKey × Bytes)} {l r : NTree}
    {k : BKey} (hwf : wfB p (.nint lab inl l r) = true)
    (hk : p ++ lab ++ [false] <+: k) :
    sem (.nint lab inl l r) k = sem l k := by
  obtain ⟨hinl, hl, hr, _⟩ := wf_int_iff.mp hwf
  have hklen : (p ++ lab).length + 1 ≤ k.length := by
    have := hk.length_le
    simpa using this
  have hinone : inlLook inl k = none := by
    cases inl with
    | none => rfl
    | some piv =>
        obtain ⟨ik, iv⟩ := piv
        have hik := hinl ik iv rfl
        simp only [inlLook]
        have : k ≠ ik := by
          intro hkik
          rw [hkik, hik] at hklen
          omega
        simp [this]
  have hrnone : sem r k = none := by
    cases hsr : sem r k with
    | none => rfl
    | some v => exact absurd (sem_pref r _ _ _ hr hsr) (fun h2 => bit_conflict hk h2)
  cases hsl : sem l k with
  | some v => simp [sem, hinone, hsl, oalt]
  | none => simp [sem, hinone, hsl, hrnone, oalt]

theorem sem_int_right {p lab : BKey} {inl : Option (BKey × Bytes)} {l r : NTree}
    {k : BKey} (hwf : wfB p (.nint lab inl l r) = true)
    (hk : p ++ lab ++ [true] <+: k) :
    sem (.nint lab inl l r) k = sem r k := by
  obtain ⟨hinl, hl, hr, _⟩ := wf_int_iff.mp hwf
  have hklen : (p ++ lab).length + 1 ≤ k.length := by
    have := hk.length_le
    simpa using this
  have hinone : inlLook inl k = none := by
    cases inl with
    | none => rfl
    | some piv =>
        obtain ⟨ik, iv⟩ := piv
        have hik := hinl ik iv rfl
        simp only [inlLook]
        have : k ≠ ik := by
          intro hkik
          rw [hkik, hik] at hklen
          omega
        simp [this]
  have hlnone : sem l k = none := by
    cases hsl : sem l k with
    | none => rfl
    | some v => exact absurd (sem_pref l _ _ _ hl hsl) (fun h2 => bit_conflict h2 hk)
  simp [sem, hinone, hlnone, oalt]

theorem sem_int_out {p lab : BKey} {inl : Option (BKey × Bytes)} {l r : NTree}
    {k : BKey} (hwf : wfB p (.nint lab inl l r) = true)
    (hk : ¬ (p ++ lab <+: k)) :
    sem (.nint lab inl l r) k = none := by
  cases hs : sem (.nint lab inl l r) k with
  | none => rfl
  | some v => exact absurd (sem_int_pref hwf hs) hk

end MKVS

namespace MKVS

theorem ne_of_ext {q k : BKey} {b : Bool} (h : q ++ [b] <+: k) : q ≠ k := by
  intro he
  subst he
  have := h.length_le
  simp at this

theorem two_keys {p lab : BKey} {inl : Option (BKey × Bytes)} {l r : NTree}
    (hwf : wfB p (.nint lab inl l r) = true) :
    ∃ k1 k2 v1 v2, k1 ≠ k2 ∧ sem (.nint lab inl l r) k1 = some v1 ∧
      sem (.nint lab inl l r) k2 = some v2 := by
  obtain ⟨hinl, hl, hr, hocc⟩ := wf_int_iff.mp hwf
  by_cases hln : l = .nnil
  · by_cases hrn : r = .nnil
    · cases inl with
      | none => simp [occ, hln, hrn] at hocc
      | some piv => simp [occ, hln, hrn] at hocc
    · -- r nonempty
      obtain ⟨k2, v2, hk2⟩ := sem_nonempty r (p ++ lab ++ [true]) hrn hr
      have hk2p : p ++ lab ++ [true] <+: k2 := sem_pref r _ _ _ hr hk2
      have hsem2 : sem (.nint lab inl l r) k2 = some v2 := by
        rw [sem_int_right hwf hk2p]; exact hk2
      cases inl with
      | none => simp [occ, hln, hrn] at hocc
      | some piv =>
          obtain ⟨ik, iv⟩ := piv
          have hik := hinl ik iv rfl
          have hsem1 : sem (.nint lab (some (ik, iv)) l r) (p ++ lab) = some iv := by
            rw [sem_at_node hwf]
            simp [inlLook, hik]
          exact ⟨p ++ lab, k2, iv, v2, ne_of_ext hk2p, hsem1, hsem2⟩
  · -- l nonempty
    obtain ⟨k1, v1, hk1⟩ := sem_nonempty l (p ++ lab ++ [false]) hln hl
    have hk1p : p ++ lab ++ [false] <+: k1 := sem_pref l _ _ _ hl hk1
    have hsem1 : sem (.nint lab inl l r) k1 = some v1 := by
      rw [sem_int_left hwf hk1p]; exact hk1
    by_cases hrn : r = .nnil
    · cases inl with
      | none => simp [occ, hln, hrn] at hocc
      | some piv =>
          obtain ⟨ik, iv⟩ := piv
          have hik := hinl ik iv rfl
          have hsem2 : sem (.nint lab (some (ik, iv)) l r) (p ++ lab) = some iv := by
            rw [sem_at_node hwf]
            simp [inlLook, hik]
          exact ⟨k1, p ++ lab, v1, iv, fun he => ne_of_ext hk1p he.symm, hsem1, hsem2⟩
    · obtain ⟨k2, v2, hk2⟩ := sem_nonempty r (p ++ lab ++ [true]) hrn hr
      have hk2p : p ++ lab ++ [true] <+: k2 := sem_pref r _ _ _ hr hk2
      have hsem2 : sem (.nint lab inl l r) k2 = some v2 := by
        rw [sem_int_right hwf hk2p]; exact hk2
      refine ⟨k1, k2, v1, v2, ?_, hsem1, hsem2⟩
      intro he
      subst he
      exact bit_conflict hk1p hk2p

theorem label_dir {p lab1 lab2 : BKey} {inl1 inl2 : Option (BKey × Bytes)}
    {l1 r1 l2 r2 : NTree}
    (hwf1 : wfB p (.nint lab1 inl1 l1 r1) = true)
    (hwf2 : wfB p (.nint lab2 inl2 l2 r2) = true)
    (hsem : ∀ k, sem (.nint lab1 inl1 l1 r1) k = sem (.nint lab2 inl2 l2 r2) k)
    (hpre : lab1 <+: lab2) : lab1 = lab2 := by
  by_contra hne
  -- lab2 = lab1 ++ b :: rest
  have hdrop : lab1 ++ lab2.drop lab1.length = lab2 := pref_drop hpre
  obtain ⟨hinl1, hl1, hr1, hocc1⟩ := wf_int_iff.mp hwf1
  cases hrest : lab2.drop lab1.length with
  | nil =>
      rw [hrest, List.append_nil] at hdrop
      exact hne hdrop
  | cons b rest =>
      rw [hrest] at hdrop
      -- every key of t2 extends p ++ lab1 ++ [b]
      have hext : ∀ k v, sem (.nint lab2 inl2 l2 r2) k = some v →
          p ++ lab1 ++ [b] <+: k := by
        intro k v hk
        have h2 := sem_int_pref hwf2 hk
        have : p ++ lab1 ++ [b] <+: p ++ lab2 := by
          rw [← hdrop]
          refine ⟨rest, ?_⟩
          simp
        exact this.trans h2
      cases inl1 with
      | some piv =>
          obtain ⟨ik, iv⟩ := piv
          have hik := hinl1 ik iv rfl
          have h1 : sem (.nint lab1 (some (ik, iv)) l1 r1) (p ++ lab1) = some iv := by
            rw [sem_at_node hwf1]
            simp [inlLook, hik]
          have h2 := hext (p ++ lab1) iv (by rw [← hsem _]; exact h1)
          have := h2.length_le
          simp at this
      | none =>
          have hocc1' := hocc1
          have hlne : l1 ≠ .nnil := by
            intro hln
            by_cases hrn : r1 = .nnil <;> simp [occ, hln, hrn] at hocc1'
          have hrne : r1 ≠ .nnil := by
            intro hrn
            by_cases hln : l1 = .nnil <;> simp [occ, hln, hrn] at hocc1'
          obtain ⟨kl, vl, hkl⟩ := sem_nonempty l1 (p ++ lab1 ++ [false]) hlne hl1
          obtain ⟨kr, vr, hkr⟩ := sem_nonempty r1 (p ++ lab1 ++ [true]) hrne hr1
          have hklp : p ++ lab1 ++ [false] <+: kl := sem_pref l1 _ _ _ hl1 hkl
          have hkrp : p ++ lab1 ++ [true] <+: kr := sem_pref r1 _ _ _ hr1 hkr
          have hkl1 : sem (.nint lab1 none l1 r1) kl = some vl := by
            rw [sem_int_left hwf1 hklp]; exact hkl
          have hkr1 : sem (.nint lab1 none l1 r1) kr = some vr := by
            rw [sem_int_right hwf1 hkrp]; exact hkr
          have hbl := hext kl vl (by rw [← hsem _]; exact hkl1)
          have hbr := hext kr vr (by rw [← hsem _]; exact hkr1)
          have hbf : b = false := by
            have := pref_eq_of_len hbl hklp (by simp)
            simpa using List.append_cancel_left this
          have hbt : b = true := by
            have := pref_eq_of_len hbr hkrp (by simp)
            simpa using List.append_cancel_left this
          rw [hbf] at hbt
          cases hbt

theorem label_eq {p lab1 lab2 : BKey} {inl1 inl2 : Option (BKey × Bytes)}
    {l1 r1 l2 r2 : NTree}
    (hwf1 : wfB p (.nint lab1 inl1 l1 r1) = true)
    (hwf2 : wfB p (.nint lab2 inl2 l2 r2) = true)
    (hsem : ∀ k, sem (.nint lab1 inl1 l1 r1) k = sem (.nint lab2 inl2 l2 r2) k) :
    lab1 = lab2 := by
  obtain ⟨k, v, hk⟩ := sem_nonempty (.nint lab1 inl1 l1 r1) p (by simp) hwf1
  have h1 : p ++ lab1 <+: k := sem_int_pref hwf1 hk
  have h2 : p ++ lab2 <+: k := sem_int_pref hwf2 (by rw [← hsem _]; exact hk)
  rcases List.prefix_or_prefix_of_prefix h1 h2 with h | h
  · have hp : lab1 <+: lab2 := by
      obtain ⟨t, ht⟩ := h
      rw [List.append_assoc] at ht
      exact ⟨t, List.append_cancel_left ht⟩
    exact label_dir hwf1 hwf2 hsem hp
  · have hp : lab2 <+: lab1 := by
      obtain ⟨t, ht⟩ := h
      rw [List.append_assoc] at ht
      exact ⟨t, List.append_cancel_left ht⟩
    exact (label_dir hwf2 hwf1 (fun k => (hsem k).symm) hp).symm

end MKVS

namespace MKVS

/-- Canonicity of the trie representation: two well-formed trees denoting
the same key-to-value mapping are structurally identical.  This is the heart
of spec section 8, property 1 (determinism): since the committed root digest
is a pure function of the structure (spec section 3, invariant 1), the root
hash depends only on the final mapping. -/
theorem canonical : ∀ (t1 t2 : NTree) (p : BKey),
    wfB p t1 = true → wfB p t2 = true → (∀ k, sem t1 k = sem t2 k) → t1 = t2 := by
  intro t1
  induction t1 with
  | nnil =>
      intro t2 p _ hwf2 hsem
      by_contra hne
      obtain ⟨k, v, hk⟩ := sem_nonempty t2 p (fun h => hne h.symm) hwf2
      rw [← hsem k] at hk
      simp [sem] at hk
  | nleaf k1 v1 =>
      intro t2 p hwf1 hwf2 hsem
      cases t2 with
      | nnil =>
          have h := hsem k1
          simp [sem] at h
      | nleaf k2 v2 =>
          have h := hsem k1
          simp only [sem, if_pos rfl] at h
          by_cases hk : k1 = k2
          · subst hk
            simp at h
            rw [h]
          · simp [hk] at h
      | nint lab2 inl2 l2 r2 =>
          obtain ⟨ka, kb, va, vb, hab, ha, hb⟩ := two_keys hwf2
          have ha' : sem (.nleaf k1 v1) ka = some va := by rw [hsem ka]; exact ha
          have hb' : sem (.nleaf k1 v1) kb = some vb := by rw [hsem kb]; exact hb
          simp only [sem] at ha' hb'
          by_cases hka : ka = k1
          · by_cases hkb : kb = k1
            · exact absurd (hka.trans hkb.symm) hab
            · simp [hkb] at hb'
          · simp [hka] at ha'
  | nint lab1 inl1 l1 r1 ihl ihr =>
      intro t2 p hwf1 hwf2 hsem
      cases t2 with
      | nnil =>
          obtain ⟨k, v, hk⟩ := sem_nonempty (.nint lab1 inl1 l1 r1) p (by simp) hwf1
          rw [hsem k] at hk
          simp [sem] at hk
      | nleaf k2 v2 =>
          obtain ⟨ka, kb, va, vb, hab, ha, hb⟩ := two_keys hwf1
          have ha' : sem (.nleaf k2 v2) ka = some va := by rw [← hsem ka]; exact ha
          have hb' : sem (.nleaf k2 v2) kb = some vb := by rw [← hsem kb]; exact hb
          simp only [sem] at ha' hb'
          by_cases hka : ka = k2
          · by_cases hkb : kb = k2
            · exact absurd (hka.trans hkb.symm) hab
            · simp [hkb] at hb'
          · simp [hka] at ha'
      | nint lab2 inl2 l2 r2 =>
          obtain rfl : lab1 = lab2 := label_eq hwf1 hwf2 hsem
          have hinl_eq : inlLook inl1 (p ++ lab1) = inlLook inl2 (p ++ lab1) := by
            rw [← sem_at_node hwf1, ← sem_at_node hwf2, hsem]
          obtain ⟨hinl1, hl1, hr1, _⟩ := wf_int_iff.mp hwf1
          obtain ⟨hinl2, hl2, hr2, _⟩ := wf_int_iff.mp hwf2
          obtain rfl : inl1 = inl2 := by
            cases inl1 with
            | none =>
                cases inl2 with
                | none => rfl
                | some piv2 =>
                    obtain ⟨ik2, iv2⟩ := piv2
                    have hik2 := hinl2 ik2 iv2 rfl
                    simp [inlLook, hik2] at hinl_eq
            | some piv1 =>
                obtain ⟨ik1, iv1⟩ := piv1
                have hik1 := hinl1 ik1 iv1 rfl
                cases inl2 with
                | none => simp [inlLook, hik1] at hinl_eq
                | some piv2 =>
                    obtain ⟨ik2, iv2⟩ := piv2
                    have hik2 := hinl2 ik2 iv2 rfl
                    simp [inlLook, hik1, hik2] at hinl_eq
                    rw [hik1, hik2, hinl_eq]
          have hleq : l1 = l2 := by
            refine ihl l2 (p ++ lab1 ++ [false]) hl1 hl2 ?_
            intro k
            by_cases hp : p ++ lab1 ++ [false] <+: k
            · rw [← sem_int_left hwf1 hp, hsem k, sem_int_left hwf2 hp]
            · have e1 : sem l1 k = none := by
                cases hs : sem l1 k with
                | none => rfl
                | some v => exact absurd (sem_pref l1 _ _ _ hl1 hs) hp
              have e2 : sem l2 k = none := by
                cases hs : sem l2 k with
                | none => rfl
                | some v => exact absurd (sem_pref l2 _ _ _ hl2 hs) hp
              rw [e1, e2]
          have hreq : r1 = r2 := by
            refine ihr r2 (p ++ lab1 ++ [true]) hr1 hr2 ?_
            intro k
            by_cases hp : p ++ lab1 ++ [true] <+: k
            · rw [← sem_int_right hwf1 hp, hsem k, sem_int_right hwf2 hp]
            · have e1 : sem r1 k = none := by
                cases hs : sem r1 k with
                | none => rfl
                | some v => exact absurd (sem_pref r1 _ _ _ hr1 hs) hp
              have e2 : sem r2 k = none := by
                cases hs : sem r2 k with
                | none => rfl
                | some v => exact absurd (sem_pref r2 _ _ _ hr2 hs) hp
              rw [e1, e2]
          rw [hleq, hreq]

end MKVS

namespace MKVS

theorem drop_add (k : BKey) (d n : Nat) : k.drop (d + n) = (k.drop d).drop n :=
  (List.drop_drop n d k).symm

theorem pref_ext {a b : BKey} (p : BKey) (h : a <+: b) : p ++ a <+: p ++ b := by
  obtain ⟨t, rfl⟩ := h
  exact ⟨t, by simp [List.append_assoc]⟩

theorem pref_cancel {p a b : BKey} (h : p ++ a <+: p ++ b) : a <+: b := by
  obtain ⟨t, ht⟩ := h
  rw [List.append_assoc] at ht
  exact ⟨t, List.append_cancel_left ht⟩

theorem insert_ne_nil (k : BKey) (v : Bytes) (t : NTree) (d : Nat) :
    insertGo k v t d ≠ .nnil := by
  cases t with
  | nnil => simp [insertGo]
  | nleaf k' v' =>
      simp only [insertGo]
      split
      · simp
      · split <;> simp
  | nint lab inl l r =>
      simp only [insertGo]
      split
      · split <;> simp
      · split <;> simp

theorem occ_inline {k : BKey} {v : Bytes} {inl : Option (BKey × Bytes)}
    {l r : NTree} (h : 2 ≤ occ inl l r) : 2 ≤ occ (some (k, v)) l r := by
  by_cases hl : l = NTree.nnil <;> by_cases hr : r = NTree.nnil <;>
    cases inl <;> simp [occ, hl, hr] at h ⊢

theorem occ_newr {inl : Option (BKey × Bytes)} {l r t' : NTree}
    (h : 2 ≤ occ inl l r) (ht : t' ≠ NTree.nnil) : 2 ≤ occ inl l t' := by
  by_cases hl : l = NTree.nnil <;> by_cases hr : r = NTree.nnil <;>
    cases inl <;> simp [occ, hl, hr, ht] at h ⊢

theorem occ_newl {inl : Option (BKey × Bytes)} {l r t' : NTree}
    (h : 2 ≤ occ inl l r) (ht : t' ≠ NTree.nnil) : 2 ≤ occ inl t' r := by
  by_cases hl : l = NTree.nnil <;> by_cases hr : r = NTree.nnil <;>
    cases inl <;> simp [occ, hl, hr, ht] at h ⊢

end MKVS


namespace MKVS

/-- Insert preserves structural well-formedness. -/
theorem wf_insert : ∀ (t : NTree) (p k : BKey) (v : Bytes),
    wfB p t = true → p <+: k → wfB p (insertGo k v t p.length) = true := by
  intro t
  induction t with
  | nnil =>
      intro p k v hwf hp
      simpa [insertGo, wfB] using List.isPrefixOf_iff_prefix.mpr hp
  | nleaf k' v' =>
      intro p k v hwf hp
      have hp' : p <+: k' := List.isPrefixOf_iff_prefix.mp hwf
      by_cases hkk : k = k'
      · simpa [insertGo, if_pos hkk, wfB] using List.isPrefixOf_iff_prefix.mpr hp
      · have hk : p ++ k.drop p.length = k := pref_drop hp
        have hk' : p ++ k'.drop p.length = k' := pref_drop hp'
        obtain ⟨C, hC⟩ : ∃ C, lcp (k.drop p.length) (k'.drop p.length) = C := ⟨_, rfl⟩
        have hsplit : C ++ (k.drop p.length).drop C.length = k.drop p.length := by
          rw [← hC]
          exact pref_drop (lcp_pl _ _)
        have hsplit' : C ++ (k'.drop p.length).drop C.length = k'.drop p.length := by
          rw [← hC]
          exact pref_drop (lcp_pr _ _)
        have hneq : ∀ (a b : Bool) (as bs : List Bool),
            (k.drop p.length).drop C.length = a :: as →
            (k'.drop p.length).drop C.length = b :: bs → a ≠ b := by
          rw [← hC]
          exact lcp_neq _ _
        simp only [insertGo, if_neg hkk, hC]
        split
        · simpa [wfB] using List.isPrefixOf_iff_prefix.mpr hp
        · next tl h1 h2 =>
            rw [drop_add] at h1 h2
            rw [h1, List.append_nil] at hsplit
            rw [h2] at hsplit'
            rw [← hsplit] at hk
            rw [← hsplit'] at hk'
            refine wf_int_iff.mpr ⟨?_, ?_, ?_, ?_⟩
            · intro ik iv h
              cases h
              exact hk.symm
            · simp [wfB]
            · simp only [wfB]
              refine List.isPrefixOf_iff_prefix.mpr ⟨tl, ?_⟩
              rw [← hk']
              simp [List.append_assoc]
            · simp [occ]
        · next tl h1 h2 =>
            rw [drop_add] at h1 h2
            rw [h1, List.append_nil] at hsplit
            rw [h2] at hsplit'
            rw [← hsplit] at hk
            rw [← hsplit'] at hk'
            refine wf_int_iff.mpr ⟨?_, ?_, ?_, ?_⟩
            · intro ik iv h
              cases h
              exact hk.symm
            · simp only [wfB]
              refine List.isPrefixOf_iff_prefix.mpr ⟨tl, ?_⟩
              rw [← hk']
              simp [List.append_assoc]
            · simp [wfB]
            · simp [occ]
        · next tl h1 h2 =>
            rw [drop_add] at h1 h2
            rw [h1] at hsplit
            rw [h2, List.append_nil] at hsplit'
            rw [← hsplit] at hk
            rw [← hsplit'] at hk'
            refine wf_int_iff.mpr ⟨?_, ?_, ?_, ?_⟩
            · intro ik iv h
              cases h
              exact hk'.symm
            · simp [wfB]
            · simp only [wfB]
              refine List.isPrefixOf_iff_prefix.mpr ⟨tl, ?_⟩
              rw [← hk]
              simp [List.append_assoc]
            · simp [occ]
        · next tl h1 h2 =>
            rw [drop_add] at h1 h2
            rw [h1] at hsplit
            rw [h2, List.append_nil] at hsplit'
            rw [← hsplit] at hk
            rw [← hsplit'] at hk'
            refine wf_int_iff.mpr ⟨?_, ?_, ?_, ?_⟩
            · intro ik iv h
              cases h
              exact hk'.symm
            · simp only [wfB]
              refine List.isPrefixOf_iff_prefix.mpr ⟨tl, ?_⟩
              rw [← hk]
              simp [List.append_assoc]
            · simp [wfB]
            · simp [occ]
        · next tl b tl2 h1 h2 =>
            rw [drop_add] at h1 h2
            have hb := hneq true b tl tl2 h1 h2
            cases b with
            | true => exact absurd rfl hb
            | false =>
                rw [h1] at hsplit
                rw [h2] at hsplit'
                rw [← hsplit] at hk
                rw [← hsplit'] at hk'
                refine wf_int_iff.mpr ⟨?_, ?_, ?_, ?_⟩
                · intro ik iv h
                  cases h
                · simp only [wfB]
                  refine List.isPrefixOf_iff_prefix.mpr ⟨tl2, ?_⟩
                  rw [← hk']
                  simp [List.append_assoc]
                · simp only [wfB]
                  refine List.isPrefixOf_iff_prefix.mpr ⟨tl, ?_⟩
                  rw [← hk]
                  simp [List.append_assoc]
                · simp [occ]
        · next tl b tl2 h1 h2 =>
            rw [drop_add] at h1 h2
            have hb := hneq false b tl tl2 h1 h2
            cases b with
            | false => exact absurd rfl hb
            | true =>
                rw [h1] at hsplit
                rw [h2] at hsplit'
                rw [← hsplit] at hk
                rw [← hsplit'] at hk'
                refine wf_int_iff.mpr ⟨?_, ?_, ?_, ?_⟩
                · intro ik iv h
                  cases h
                · simp only [wfB]
                  refine List.isPrefixOf_iff_prefix.mpr ⟨tl, ?_⟩
                  rw [← hk]
                  simp [List.append_assoc]
                · simp only [wfB]
                  refine List.isPrefixOf_iff_prefix.mpr ⟨tl2, ?_⟩
                  rw [← hk']
                  simp [List.append_assoc]
                · simp [occ]
  | nint lab inl l r ihl ihr =>
      intro p k v hwf hp
      obtain ⟨hinl, hl, hr, hocc⟩ := wf_int_iff.mp hwf
      have hk : p ++ k.drop p.length = k := pref_drop hp
      by_cases hpre : lab.isPrefixOf (k.drop p.length)
      · have hlabs : lab <+: k.drop p.length := List.isPrefixOf_iff_prefix.mp hpre
        have hsplit := pref_drop hlabs
        simp only [insertGo, if_pos hpre]
        split
        · next h1 =>
            rw [drop_add] at h1
            rw [h1, List.append_nil] at hsplit
            rw [← hsplit] at hk
            refine wf_int_iff.mpr ⟨?_, hl, hr, occ_inline hocc⟩
            intro ik iv h
            cases h
            exact hk.symm
        · next tl h1 =>
            rw [drop_add] at h1
            rw [h1] at hsplit
            rw [← hsplit] at hk
            have hpk : (p ++ lab ++ [true]) <+: k :=
              ⟨tl, by rw [← hk]; simp [List.append_assoc]⟩
            have hlen : (p ++ lab ++ [true]).length = p.length + lab.length + 1 := by
              simp [Nat.add_assoc]
            have hnew := ihr (p ++ lab ++ [true]) k v hr hpk
            rw [hlen] at hnew
            exact wf_int_iff.mpr ⟨hinl, hl, hnew,
              occ_newr hocc (insert_ne_nil _ _ _ _)⟩
        · next tl h1 =>
            rw [drop_add] at h1
            rw [h1] at hsplit
            rw [← hsplit] at hk
            have hpk : (p ++ lab ++ [false]) <+: k :=
              ⟨tl, by rw [← hk]; simp [List.append_assoc]⟩
            have hlen : (p ++ lab ++ [false]).length = p.length + lab.length + 1 := by
              simp [Nat.add_assoc]
            have hnew := ihl (p ++ lab ++ [false]) k v hl hpk
            rw [hlen] at hnew
            exact wf_int_iff.mpr ⟨hinl, hnew, hr,
              occ_newl hocc (insert_ne_nil _ _ _ _)⟩
      · have hnlab : ¬ lab <+: k.drop p.length :=
          fun h => hpre (List.isPrefixOf_iff_prefix.mpr h)
        obtain ⟨C, hC⟩ : ∃ C, lcp (k.drop p.length) lab = C := ⟨_, rfl⟩
        have hsplit : C ++ (k.drop p.length).drop C.length = k.drop p.length := by
          rw [← hC]
          exact pref_drop (lcp_pl _ _)
        have hsplit' : C ++ lab.drop C.length = lab := by
          rw [← hC]
          exact pref_drop (lcp_pr _ _)
        have hneq : ∀ (a b : Bool) (as bs : List Bool),
            (k.drop p.length).drop C.length = a :: as →
            lab.drop C.length = b :: bs → a ≠ b := by
          rw [← hC]
          exact lcp_neq _ _
        simp only [insertGo, if_neg hpre, hC]
        split
        · next x h1 =>
            rw [h1, List.append_nil] at hsplit'
            rw [hsplit'] at hsplit
            exact absurd ⟨_, hsplit⟩ hnlab
        · next tl h1 h2 =>
            rw [drop_add] at h2
            rw [h1] at hsplit'
            rw [h2, List.append_nil] at hsplit
            rw [← hsplit] at hk
            have hpath : (p ++ C ++ [true]) ++ tl = p ++ lab := by
              rw [← hsplit']
              simp [List.append_assoc]
            refine wf_int_iff.mpr ⟨?_, ?_, ?_, ?_⟩
            · intro ik iv h
              cases h
              exact hk.symm
            · simp [wfB]
            · refine wf_int_iff.mpr ⟨?_, ?_, ?_, hocc⟩
              · intro ik iv h
                rw [hpath]
                exact hinl ik iv h
              · rw [hpath]
                exact hl
              · rw [hpath]
                exact hr
            · simp [occ]
        · next tl h1 h2 =>
            rw [drop_add] at h2
            rw [h1] at hsplit'
            rw [h2, List.append_nil] at hsplit
            rw [← hsplit] at hk
            have hpath : (p ++ C ++ [false]) ++ tl = p ++ lab := by
              rw [← hsplit']
              simp [List.append_assoc]
            refine wf_int_iff.mpr ⟨?_, ?_, ?_, ?_⟩
            · intro ik iv h
              cases h
              exact hk.symm
            · refine wf_int_iff.mpr ⟨?_, ?_, ?_, hocc⟩
              · intro ik iv h
                rw [hpath]
                exact hinl ik iv h
              · rw [hpath]
                exact hl
              · rw [hpath]
                exact hr
            · simp [wfB]
            · simp [occ]
        · next tl b tl2 h1 h2 =>
            rw [drop_add] at h2
            have hb := hneq b true tl2 tl h2 h1
            cases b with
            | true => exact absurd rfl hb
            | false =>
                rw [h1] at hsplit'
                rw [h2] at hsplit
                rw [← hsplit] at hk
                have hpath : (p ++ C ++ [true]) ++ tl = p ++ lab := by
                  rw [← hsplit']
                  simp [List.append_assoc]
                refine wf_int_iff.mpr ⟨?_, ?_, ?_, ?_⟩
                · intro ik iv h
                  cases h
                · simp only [wfB]
                  refine List.isPrefixOf_iff_prefix.mpr ⟨tl2, ?_⟩
                  rw [← hk]
                  simp [List.append_assoc]
                · refine wf_int_iff.mpr ⟨?_, ?_, ?_, hocc⟩
                  · intro ik iv h
                    rw [hpath]
                    exact hinl ik iv h
                  · rw [hpath]
                    exact hl
                  · rw [hpath]
                    exact hr
                · simp [occ]
        · next tl b tl2 h1 h2 =>
            rw [drop_add] at h2
            have hb := hneq b false tl2 tl h2 h1
            cases b with
            | false => exact absurd rfl hb
            | true =>
                rw [h1] at hsplit'
                rw [h2] at hsplit
                rw [← hsplit] at hk
                have hpath : (p ++ C ++ [false]) ++ tl = p ++ lab := by
                  rw [← hsplit']
                  simp [List.append_assoc]
                refine wf_int_iff.mpr ⟨?_, ?_, ?_, ?_⟩
                · intro ik iv h
                  cases h
                · refine wf_int_iff.mpr ⟨?_, ?_, ?_, hocc⟩
                  · intro ik iv h
                    rw [hpath]
                    exact hinl ik iv h
                  · rw [hpath]
                    exact hl
                  · rw [hpath]
                    exact hr
                · simp only [wfB]
                  refine List.isPrefixOf_iff_prefix.mpr ⟨tl2, ?_⟩
                  rw [← hk]
                  simp [List.append_assoc]
                · simp [occ]

end MKVS

namespace MKVS

theorem oalt_none_right (a : Option Bytes) : oalt a none = a := by
  cases a <;> rfl

@[simp] theorem oalt_someL (v : Bytes) (b : Option Bytes) : oalt (some v) b = some v := rfl

@[simp] theorem oalt_noneL (b : Option Bytes) : oalt none b = b := rfl

theorem sem_lab (lab1 lab2 : BKey) (inl : Option (BKey × Bytes)) (l r : NTree)
    (q : BKey) : sem (.nint lab1 inl l r) q = sem (.nint lab2 inl l r) q := rfl

/-- Insert updates the denoted mapping pointwise: the inserted key now maps
to the new value and every other key is unchanged (spec section 8,
properties 1 and 2). -/
theorem sem_insert : ∀ (t : NTree) (p k : BKey) (v : Bytes) (q : BKey),
    wfB p t = true → p <+: k →
    sem (insertGo k v t p.length) q = if q = k then some v else sem t q := by
  intro t
  induction t with
  | nnil =>
      intro p k v q hwf hp
      by_cases hq : q = k <;> simp [insertGo, sem, hq]
  | nleaf k' v' =>
      intro p k v q hwf hp
      have hp' : p <+: k' := List.isPrefixOf_iff_prefix.mp hwf
      by_cases hkk : k = k'
      · subst hkk
        by_cases hq : q = k <;> simp [insertGo, sem, hq]
      · have hk : p ++ k.drop p.length = k := pref_drop hp
        have hk' : p ++ k'.drop p.length = k' := pref_drop hp'
        obtain ⟨C, hC⟩ : ∃ C, lcp (k.drop p.length) (k'.drop p.length) = C := ⟨_, rfl⟩
        have hsplit : C ++ (k.drop p.length).drop C.length = k.drop p.length := by
          rw [← hC]
          exact pref_drop (lcp_pl _ _)
        have hsplit' : C ++ (k'.drop p.length).drop C.length = k'.drop p.length := by
          rw [← hC]
          exact pref_drop (lcp_pr _ _)
        simp only [insertGo, if_neg hkk, hC]
        split
        · next h1 h2 =>
            rw [drop_add] at h1 h2
            rw [h1, List.append_nil] at hsplit
            rw [h2, List.append_nil] at hsplit'
            rw [← hsplit] at hk
            rw [← hsplit'] at hk'
            exact absurd (hk.symm.trans hk') hkk
        · next tl h1 h2 =>
            by_cases hq : q = k <;> simp [sem, inlLook, hq, hkk, oalt_none_right]
        · next tl h1 h2 =>
            by_cases hq : q = k <;> simp [sem, inlLook, hq, hkk, oalt_none_right]
        · next tl h1 h2 =>
            by_cases hq : q = k <;>
              by_cases hq' : q = k' <;>
                simp [sem, inlLook, hq, hq', hkk, Ne.symm hkk, oalt_none_right]
        · next tl h1 h2 =>
            by_cases hq : q = k <;>
              by_cases hq' : q = k' <;>
                simp [sem, inlLook, hq, hq', hkk, Ne.symm hkk, oalt_none_right]
        · next tl b tl2 h1 h2 =>
            by_cases hq : q = k <;>
              by_cases hq' : q = k' <;>
                simp [sem, inlLook, hq, hq', hkk, Ne.symm hkk, oalt_none_right]
        · next tl b tl2 h1 h2 =>
            by_cases hq : q = k <;>
              by_cases hq' : q = k' <;>
                simp [sem, inlLook, hq, hq', hkk, Ne.symm hkk, oalt_none_right]
  | nint lab inl l r ihl ihr =>
      intro p k v q hwf hp
      have hwf' := hwf
      obtain ⟨hinl, hl, hr, hocc⟩ := wf_int_iff.mp hwf
      have hk : p ++ k.drop p.length = k := pref_drop hp
      by_cases hpre : lab.isPrefixOf (k.drop p.length)
      · have hlabs : lab <+: k.drop p.length := List.isPrefixOf_iff_prefix.mp hpre
        have hsplit := pref_drop hlabs
        simp only [insertGo, if_pos hpre]
        split
        · next h1 =>
            rw [drop_add] at h1
            rw [h1, List.append_nil] at hsplit
            rw [← hsplit] at hk
            by_cases hq : q = k
            · subst hq
              simp [sem, inlLook]
            · simp only [sem, if_neg hq]
              have hinone : inlLook inl q = none ∨ inlLook inl q = inlLook (some (k, v)) q := by
                cases inl with
                | none => exact Or.inl rfl
                | some piv =>
                    obtain ⟨ik, iv⟩ := piv
                    have hik : ik = p ++ lab := hinl ik iv rfl
                    left
                    simp only [inlLook]
                    rw [if_neg]
                    intro hqik
                    rw [hik, hk] at hqik
                    exact hq hqik
              rcases hinone with hnone | _
              · rw [hnone]
                simp only [inlLook, if_neg hq]
              · simp only [inlLook, if_neg hq]
                cases inl with
                | none => simp [inlLook]
                | some piv =>
                    obtain ⟨ik, iv⟩ := piv
                    have hik : ik = p ++ lab := hinl ik iv rfl
                    simp only [inlLook]
                    rw [if_neg]
                    intro hqik
                    rw [hik, hk] at hqik
                    exact hq hqik
        · next tl h1 =>
            rw [drop_add] at h1
            rw [h1] at hsplit
            rw [← hsplit] at hk
            have hpk : (p ++ lab ++ [true]) <+: k :=
              ⟨tl, by rw [← hk]; simp [List.append_assoc]⟩
            have hlen : (p ++ lab ++ [true]).length = p.length + lab.length + 1 := by
              simp [Nat.add_assoc]
            have hih := ihr (p ++ lab ++ [true]) k v q hr hpk
            rw [hlen] at hih
            by_cases hq : q = k
            · subst hq
              have hinone : inlLook inl q = none := by
                cases inl with
                | none => rfl
                | some piv =>
                    obtain ⟨ik, iv⟩ := piv
                    have hik : ik = p ++ lab := hinl ik iv rfl
                    simp only [inlLook]
                    rw [if_neg]
                    intro hqik
                    rw [hqik, hik] at hpk
                    have := hpk.length_le
                    simp at this
              have hlnone : sem l q = none := by
                cases hsl : sem l q with
                | none => rfl
                | some w => exact (bit_conflict (sem_pref l _ _ _ hl hsl) hpk).elim
              simp [sem, hinone, hlnone, hih]
            · simp only [sem, hih, if_neg hq]
        · next tl h1 =>
            rw [drop_add] at h1
            rw [h1] at hsplit
            rw [← hsplit] at hk
            have hpk : (p ++ lab ++ [false]) <+: k :=
              ⟨tl, by rw [← hk]; simp [List.append_assoc]⟩
            have hlen : (p ++ lab ++ [false]).length = p.length + lab.length + 1 := by
              simp [Nat.add_assoc]
            have hih := ihl (p ++ lab ++ [false]) k v q hl hpk
            rw [hlen] at hih
            by_cases hq : q = k
            · subst hq
              have hinone : inlLook inl q = none := by
                cases inl with
                | none => rfl
                | some piv =>
                    obtain ⟨ik, iv⟩ := piv
                    have hik : ik = p ++ lab := hinl ik iv rfl
                    simp only [inlLook]
                    rw [if_neg]
                    intro hqik
                    rw [hqik, hik] at hpk
                    have := hpk.length_le
                    simp at this
              simp [sem, hinone, hih]
            · simp only [sem, hih, if_neg hq]
      · have hnlab : ¬ lab <+: k.drop p.length :=
          fun h => hpre (List.isPrefixOf_iff_prefix.mpr h)
        have hout : sem (.nint lab inl l r) k = none := by
          refine sem_int_out hwf' ?_
          intro hpl
          refine hnlab ?_
          have := hpl
          rw [← hk] at this
          exact pref_cancel this
        obtain ⟨C, hC⟩ : ∃ C, lcp (k.drop p.length) lab = C := ⟨_, rfl⟩
        have hsplit : C ++ (k.drop p.length).drop C.length = k.drop p.length := by
          rw [← hC]
          exact pref_drop (lcp_pl _ _)
        have hsplit' : C ++ lab.drop C.length = lab := by
          rw [← hC]
          exact pref_drop (lcp_pr _ _)
        simp only [insertGo, if_neg hpre, hC]
        split
        · next x h1 =>
            rw [h1, List.append_nil] at hsplit'
            rw [hsplit'] at hsplit
            exact absurd ⟨_, hsplit⟩ hnlab
        · next tl h1 h2 =>
            by_cases hq : q = k
            · subst hq
              simp [sem, inlLook, oalt_none_right]
            · simp [sem, inlLook, if_neg hq, oalt_none_right]
        · next tl h1 h2 =>
            by_cases hq : q = k
            · subst hq
              simp [sem, inlLook, oalt_none_right]
            · simp [sem, inlLook, if_neg hq, oalt_none_right]
        · next tl b tl2 h1 h2 =>
            by_cases hq : q = k
            · subst hq
              simp [sem, inlLook, oalt_none_right]
            · simp [sem, inlLook, if_neg hq, oalt_none_right]
        · next tl b tl2 h1 h2 =>
            by_cases hq : q = k
            · subst hq
              have hn : oalt (inlLook inl q) (oalt (sem l q) (sem r q)) = none := hout
              simp [sem, hn, oalt_none_right]
              rfl
            · simp [sem, inlLook, if_neg hq, oalt_none_right]

end MKVS

namespace MKVS

/-- Canonicalization after removal does not change the denoted mapping. -/
theorem sem_canonInt (lab0 lab : BKey) (inl : Option (BKey × Bytes))
    (l r : NTree) (q : BKey) :
    sem (canonInt lab0 inl l r) q = sem (.nint lab inl l r) q := by
  cases inl with
  | none =>
      cases l <;> cases r <;>
        simp [canonInt, sem, inlLook, oalt_none_right]
  | some piv =>
      obtain ⟨ik, iv⟩ := piv
      cases l <;> cases r <;>
        simp [canonInt, sem, inlLook, oalt_none_right]

/-- Canonicalization repairs well-formedness regardless of how many
occupied slots remain. -/
theorem wf_canonInt {p lab : BKey} {inl : Option (BKey × Bytes)} {l r : NTree}
    (hinl : ∀ ik iv, inl = some (ik, iv) → ik = p ++ lab)
    (hl : wfB (p ++ lab ++ [false]) l = true)
    (hr : wfB (p ++ lab ++ [true]) r = true) :
    wfB p (canonInt lab inl l r) = true := by
  have hpathF : (p ++ lab ++ [false]) ++ [] = p ++ lab ++ [false] := by simp
  cases inl with
  | none =>
      cases l with
      | nnil =>
          cases r with
          | nnil => simp [canonInt, wfB]
          | nleaf k2 v2 =>
              have h2 : (p ++ lab ++ [true]) <+: k2 :=
                List.isPrefixOf_iff_prefix.mp hr
              simp only [canonInt, wfB]
              exact List.isPrefixOf_iff_prefix.mpr
                (((List.prefix_append p lab).trans (List.prefix_append _ [true])).trans h2)
          | nint lab2 inl2 l2 r2 =>
              obtain ⟨hinl2, hl2, hr2, hocc2⟩ := wf_int_iff.mp hr
              have hpath : (p ++ lab ++ [true]) ++ lab2 = p ++ (lab ++ true :: lab2) := by
                simp [List.append_assoc]
              simp only [canonInt]
              refine wf_int_iff.mpr ⟨?_, ?_, ?_, hocc2⟩
              · intro ik iv h
                rw [← hpath]
                exact hinl2 ik iv h
              · rw [← hpath]
                exact hl2
              · rw [← hpath]
                exact hr2
      | nleaf k2 v2 =>
          cases r with
          | nnil =>
              have h2 : (p ++ lab ++ [false]) <+: k2 :=
                List.isPrefixOf_iff_prefix.mp hl
              simp only [canonInt, wfB]
              exact List.isPrefixOf_iff_prefix.mpr
                (((List.prefix_append p lab).trans (List.prefix_append _ [false])).trans h2)
          | nleaf k3 v3 =>
              exact wf_int_iff.mpr ⟨(fun ik iv h => by cases h), hl, hr, by simp [occ]⟩
          | nint lab3 inl3 l3 r3 =>
              exact wf_int_iff.mpr ⟨(fun ik iv h => by cases h), hl, hr, by simp [occ]⟩
      | nint lab2 inl2 l2 r2 =>
          cases r with
          | nnil =>
              obtain ⟨hinl2, hl2, hr2, hocc2⟩ := wf_int_iff.mp hl
              have hpath : (p ++ lab ++ [false]) ++ lab2 = p ++ (lab ++ false :: lab2) := by
                simp [List.append_assoc]
              simp only [canonInt]
              refine wf_int_iff.mpr ⟨?_, ?_, ?_, hocc2⟩
              · intro ik iv h
                rw [← hpath]
                exact hinl2 ik iv h
              · rw [← hpath]
                exact hl2
              · rw [← hpath]
                exact hr2
          | nleaf k3 v3 =>
              exact wf_int_iff.mpr ⟨(fun ik iv h => by cases h), hl, hr, by simp [occ]⟩
          | nint lab3 inl3 l3 r3 =>
              exact wf_int_iff.mpr ⟨(fun ik iv h => by cases h), hl, hr, by simp [occ]⟩
  | some piv =>
      obtain ⟨ik, iv⟩ := piv
      have hik : ik = p ++ lab := hinl ik iv rfl
      cases l with
      | nnil =>
          cases r with
          | nnil =>
              simp only [canonInt, wfB]
              refine List.isPrefixOf_iff_prefix.mpr ?_
              rw [hik]
              exact List.prefix_append p lab
          | nleaf k3 v3 =>
              exact wf_int_iff.mpr ⟨hinl, hl, hr, by simp [occ]⟩
          | nint lab3 inl3 l3 r3 =>
              exact wf_int_iff.mpr ⟨hinl, hl, hr, by simp [occ]⟩
      | nleaf k2 v2 =>
          cases r with
          | nnil => exact wf_int_iff.mpr ⟨hinl, hl, hr, by simp [occ]⟩
          | nleaf k3 v3 => exact wf_int_iff.mpr ⟨hinl, hl, hr, by simp [occ]⟩
          | nint lab3 inl3 l3 r3 => exact wf_int_iff.mpr ⟨hinl, hl, hr, by simp [occ]⟩
      | nint lab2 inl2 l2 r2 =>
          cases r with
          | nnil => exact wf_int_iff.mpr ⟨hinl, hl, hr, by simp [occ]⟩
          | nleaf k3 v3 => exact wf_int_iff.mpr ⟨hinl, hl, hr, by simp [occ]⟩
          | nint lab3 inl3 l3 r3 => exact wf_int_iff.mpr ⟨hinl, hl, hr, by simp [occ]⟩

theorem sem_child_none_at {p lab : BKey} {t : NTree} {b : Bool}
    (h : wfB (p ++ lab ++ [b]) t = true) : sem t (p ++ lab) = none := by
  cases hs : sem t (p ++ lab) with
  | none => rfl
  | some w =>
      have := (sem_pref t _ _ _ h hs).length_le
      simp at this

end MKVS

namespace MKVS

/-- Removal preserves structural well-formedness. -/
theorem wf_remove : ∀ (t : NTree) (p k : BKey),
    wfB p t = true → wfB p (removeGo k t p.length) = true := by
  intro t
  induction t with
  | nnil => intro p k _; simp [removeGo, wfB]
  | nleaf k' v' =>
      intro p k hwf
      by_cases hkk : k = k'
      · simp [removeGo, hkk, wfB]
      · simp only [removeGo, if_neg hkk]
        exact hwf
  | nint lab inl l r ihl ihr =>
      intro p k hwf
      obtain ⟨hinl, hl, hr, hocc⟩ := wf_int_iff.mp hwf
      by_cases hpre : lab.isPrefixOf (k.drop p.length)
      · simp only [removeGo, if_pos hpre]
        split
        · refine wf_canonInt ?_ hl hr
          intro ik iv h
          cases hi : inl with
          | none => rw [hi] at h; cases h
          | some piv =>
              obtain ⟨ik0, iv0⟩ := piv
              rw [hi] at h
              by_cases hk0 : k = ik0
              · simp [hk0] at h
              · simp [hk0] at h
                exact h.1 ▸ hinl ik0 iv0 hi
        · next tl h1 =>
            have hlen : (p ++ lab ++ [true]).length = p.length + lab.length + 1 := by
              simp [Nat.add_assoc]
            have hnew := ihr (p ++ lab ++ [true]) k hr
            rw [hlen] at hnew
            exact wf_canonInt hinl hl hnew
        · next tl h1 =>
            have hlen : (p ++ lab ++ [false]).length = p.length + lab.length + 1 := by
              simp [Nat.add_assoc]
            have hnew := ihl (p ++ lab ++ [false]) k hl
            rw [hlen] at hnew
            exact wf_canonInt hinl hnew hr
      · simp only [removeGo, if_neg hpre]
        exact hwf

/-- Removal deletes exactly the requested key from the denoted mapping
(spec section 8, properties 2 and 3). -/
theorem sem_remove : ∀ (t : NTree) (p k q : BKey),
    wfB p t = true → p <+: k →
    sem (removeGo k t p.length) q = if q = k then none else sem t q := by
  intro t
  induction t with
  | nnil =>
      intro p k q hwf hp
      simp [removeGo, sem]
  | nleaf k' v' =>
      intro p k q hwf hp
      by_cases hkk : k = k'
      · subst hkk
        by_cases hq : q = k <;> simp [removeGo, sem, hq]
      · simp only [removeGo, if_neg hkk]
        by_cases hq : q = k
        · subst hq
          simp [sem, hkk]
        · rw [if_neg hq]
  | nint lab inl l r ihl ihr =>
      intro p k q hwf hp
      have hwf' := hwf
      obtain ⟨hinl, hl, hr, hocc⟩ := wf_int_iff.mp hwf
      have hk : p ++ k.drop p.length = k := pref_drop hp
      by_cases hpre : lab.isPrefixOf (k.drop p.length)
      · have hlabs : lab <+: k.drop p.length := List.isPrefixOf_iff_prefix.mp hpre
        have hsplit := pref_drop hlabs
        simp only [removeGo, if_pos hpre]
        split
        · next h1 =>
            rw [drop_add] at h1
            rw [h1, List.append_nil] at hsplit
            rw [← hsplit] at hk
            have hlnone : sem l k = none := by
              rw [← hk]
              exact sem_child_none_at hl
            have hrnone : sem r k = none := by
              rw [← hk]
              exact sem_child_none_at hr
            rw [sem_canonInt _ lab]
            cases hi : inl with
            | none =>
                by_cases hq : q = k
                · subst hq
                  simp [sem, inlLook, hlnone, hrnone]
                · simp [sem, inlLook, hq]
            | some piv =>
                obtain ⟨ik0, iv0⟩ := piv
                have hik : ik0 = p ++ lab := hinl ik0 iv0 hi
                have hkik : k = ik0 := by rw [hik, hk]
                by_cases hq : q = k
                · subst hq
                  simp [hkik.symm, sem, inlLook, hlnone, hrnone]
                · simp [hkik.symm, hq, sem, inlLook]
        · next tl h1 =>
            rw [drop_add] at h1
            rw [h1] at hsplit
            rw [← hsplit] at hk
            have hpk : (p ++ lab ++ [true]) <+: k :=
              ⟨tl, by rw [← hk]; simp [List.append_assoc]⟩
            have hlen : (p ++ lab ++ [true]).length = p.length + lab.length + 1 := by
              simp [Nat.add_assoc]
            have hih := ihr (p ++ lab ++ [true]) k q hr hpk
            rw [hlen] at hih
            rw [sem_canonInt _ lab]
            by_cases hq : q = k
            · subst hq
              have hinone : inlLook inl q = none := by
                cases inl with
                | none => rfl
                | some piv =>
                    obtain ⟨ik, iv⟩ := piv
                    have hik : ik = p ++ lab := hinl ik iv rfl
                    simp only [inlLook]
                    rw [if_neg]
                    intro hqik
                    rw [hqik, hik] at hpk
                    have := hpk.length_le
                    simp at this
              have hlnone : sem l q = none := by
                cases hsl : sem l q with
                | none => rfl
                | some w => exact (bit_conflict (sem_pref l _ _ _ hl hsl) hpk).elim
              simp [sem, hinone, hlnone, hih]
            · simp only [sem, hih, if_neg hq]
        · next tl h1 =>
            rw [drop_add] at h1
            rw [h1] at hsplit
            rw [← hsplit] at hk
            have hpk : (p ++ lab ++ [false]) <+: k :=
              ⟨tl, by rw [← hk]; simp [List.append_assoc]⟩
            have hlen : (p ++ lab ++ [false]).length = p.length + lab.length + 1 := by
              simp [Nat.add_assoc]
            have hih := ihl (p ++ lab ++ [false]) k q hl hpk
            rw [hlen] at hih
            rw [sem_canonInt _ lab]
            by_cases hq : q = k
            · subst hq
              have hinone : inlLook inl q = none := by
                cases inl with
                | none => rfl
                | some piv =>
                    obtain ⟨ik, iv⟩ := piv
                    have hik : ik = p ++ lab := hinl ik iv rfl
                    simp only [inlLook]
                    rw [if_neg]
                    intro hqik
                    rw [hqik, hik] at hpk
                    have := hpk.length_le
                    simp at this
              have hrnone : sem r q = none := by
                cases hsr : sem r q with
                | none => rfl
                | some w => exact (bit_conflict hpk (sem_pref r _ _ _ hr hsr)).elim
              simp [sem, hinone, hrnone, hih]
            · simp only [sem, hih, if_neg hq]
      · have hnlab : ¬ lab <+: k.drop p.length :=
          fun h => hpre (List.isPrefixOf_iff_prefix.mpr h)
        have hout : sem (.nint lab inl l r) k = none := by
          refine sem_int_out hwf' ?_
          intro hpl
          refine hnlab ?_
          rw [← hk] at hpl
          exact pref_cancel hpl
        simp only [removeGo, if_neg hpre]
        by_cases hq : q = k
        · subst hq
          rw [hout, if_pos rfl]
        · rw [if_neg hq]

end MKVS

namespace MKVS

/-- The structural lookup traversal agrees with the denoted mapping on
well-formed trees. -/
theorem get_eq_sem : ∀ (t : NTree) (p k : BKey),
    wfB p t = true → p <+: k → getGo k t p.length = sem t k := by
  intro t
  induction t with
  | nnil => intro p k _ _; simp [getGo, sem]
  | nleaf k' v => intro p k _ _; simp [getGo, sem]
  | nint lab inl l r ihl ihr =>
      intro p k hwf hp
      have hwf' := hwf
      obtain ⟨hinl, hl, hr, hocc⟩ := wf_int_iff.mp hwf
      have hk : p ++ k.drop p.length = k := pref_drop hp
      by_cases hpre : lab.isPrefixOf (k.drop p.length)
      · have hlabs : lab <+: k.drop p.length := List.isPrefixOf_iff_prefix.mp hpre
        have hsplit := pref_drop hlabs
        simp only [getGo, if_pos hpre]
        split
        · next h1 =>
            rw [drop_add] at h1
            rw [h1, List.append_nil] at hsplit
            rw [← hsplit] at hk
            have hnode := sem_at_node hwf'
            rw [hk] at hnode
            rw [hnode]
            cases inl with
            | none => rfl
            | some piv => obtain ⟨ik, iv⟩ := piv; rfl
        · next tl h1 =>
            rw [drop_add] at h1
            rw [h1] at hsplit
            rw [← hsplit] at hk
            have hpk : (p ++ lab ++ [true]) <+: k :=
              ⟨tl, by rw [← hk]; simp [List.append_assoc]⟩
            have hlen : (p ++ lab ++ [true]).length = p.length + lab.length + 1 := by
              simp [Nat.add_assoc]
            have hih := ihr (p ++ lab ++ [true]) k hr hpk
            rw [hlen] at hih
            rw [hih, sem_int_right hwf' hpk]
        · next tl h1 =>
            rw [drop_add] at h1
            rw [h1] at hsplit
            rw [← hsplit] at hk
            have hpk : (p ++ lab ++ [false]) <+: k :=
              ⟨tl, by rw [← hk]; simp [List.append_assoc]⟩
            have hlen : (p ++ lab ++ [false]).length = p.length + lab.length + 1 := by
              simp [Nat.add_assoc]
            have hih := ihl (p ++ lab ++ [false]) k hl hpk
            rw [hlen] at hih
            rw [hih, sem_int_left hwf' hpk]
      · have hout : sem (.nint lab inl l r) k = none := by
          refine sem_int_out hwf' ?_
          intro hpl
          rw [← hk] at hpl
          exact hpre (List.isPrefixOf_iff_prefix.mpr (pref_cancel hpl))
        simp only [getGo, if_neg hpre]
        exact hout.symm

/-! ### The tree handle (spec section 6, "Tree contract") -/

/-- Tree-handle error surface relevant to the engine layer (spec
section 7): operations on a closed handle fail with `Closed`. -/
inductive TreeErr where
  | closedErr
deriving DecidableEq, Repr

/-- A write-log entry (spec section 3, "Write log"): an insert carrying the
written value, or a deletion. -/
inductive LogEntryT where
  | insertE (key value : Bytes)
  | deleteE (key : Bytes)
deriving DecidableEq, Repr

/-- Modelled from the spec (sections 4.2 and 6): the missing tree-engine
handle.  It carries the current (copy-on-write) root, the pending
write-log entries recorded since the last commit (one per touched key,
holding the key's final state: `some v` insert, `none` delete), and the
closed flag. -/
structure MTree where
  root : NTree
  pending : List (Bytes × Option Bytes)
  closed : Bool
deriving DecidableEq, Repr

/-- Record a key's final effect in the pending write log, replacing any
earlier entry for the same key. -/
def updPending : List (Bytes × Option Bytes) → Bytes → Option Bytes →
    List (Bytes × Option Bytes)
  | [], k, v => [(k, v)]
  | (k', v') :: rest, k, v =>
      if k' = k then (k, v) :: rest else (k', v') :: updPending rest k v

/-- Bit-level wrappers of the trie operations at the root (depth 0). -/
def insertT (k v : Bytes) (t : NTree) : NTree := insertGo (keyBits k) v t 0

def removeT (k : Bytes) (t : NTree) : NTree := removeGo (keyBits k) t 0

def getT (k : Bytes) (t : NTree) : Option Bytes := getGo (keyBits k) t 0

/-- Modelled from the spec (section 6 `Insert`): fails with `Closed` on a
closed handle, otherwise updates the trie and the pending write log. -/
def MTree.insert (t : MTree) (k v : Bytes) : Except TreeErr MTree :=
  if t.closed then .error .closedErr
  else .ok { root := insertT k v t.root,
             pending := updPending t.pending k (some v), closed := t.closed }

/-- Modelled from the spec (section 6 `Get`). -/
def MTree.get (t : MTree) (k : Bytes) : Except TreeErr (Option Bytes) :=
  if t.closed then .error .closedErr else .ok (getT k t.root)

/-- Modelled from the spec (section 6 `Remove`): removing a key is never an
error on an open handle; the pending write log records the deletion. -/
def MTree.remove (t : MTree) (k : Bytes) : Except TreeErr MTree :=
  if t.closed then .error .closedErr
  else .ok { root := removeT k t.root,
             pending := updPending t.pending k none, closed := t.closed }

/-- Modelled from the spec (section 6 `Close`): closing is idempotent and
makes every subsequent operation fail with `Closed`. -/
def MTree.close (t : MTree) : MTree := { t with closed := true }

/-- Canonical binary encoding of a node (spec section 6, "Canonical
encoding"): an injective byte encoding of labels, inline leaves, values and
children, standing in for the digest, which by spec invariant 1 is a pure
function of exactly this data. -/
def b2n (b : Bool) : Nat := if b then 1 else 0

def encTree : NTree → List Nat
  | .nnil => [0]
  | .nleaf k v => 1 :: k.length :: (k.map b2n ++ v.length :: v)
  | .nint lab inl l r =>
      2 :: lab.length :: (lab.map b2n ++
        (match inl with
         | some (ik, iv) => 1 :: ik.length :: (ik.map b2n ++ iv.length :: iv)
         | none => [0]) ++ encTree l ++ encTree r)

/-- The all-zero sentinel hash of the empty tree (spec section 3,
"Digest"). -/
def emptyHash : List Nat := List.replicate 32 0

/-- The committed root digest: the empty sentinel for the empty tree,
otherwise the canonical encoding (the model's stand-in digest). -/
def rootHash (t : NTree) : List Nat :=
  match t with
  | .nnil => emptyHash
  | _ => encTree t

/-- The write log emitted by a commit, from the pending per-key effects. -/
def wlogOf : List (Bytes × Option Bytes) → List LogEntryT
  | [] => []
  | (k, some v) :: rest => .insertE k v :: wlogOf rest
  | (k, none) :: rest => .deleteE k :: wlogOf rest

/-- Modelled from the spec (section 6 `Commit`, section 4.2 "Algorithm:
commit and copy-on-write"): engine-level commit emits the write log
recorded during the call window, returns the new root digest, and clears
the pending set.  NodeDB-level version and namespace validation is
modelled separately by `commitCheck`. -/
def MTree.commit (t : MTree) : Except TreeErr (List LogEntryT × List Nat × MTree) :=
  if t.closed then .error .closedErr
  else .ok (wlogOf t.pending, rootHash t.root,
            { root := t.root, pending := [], closed := t.closed })

/-- A mutating tree operation (insert-or-overwrite, or remove). -/
inductive TOp where
  | ins (key value : Bytes)
  | rem (key : Bytes)
deriving DecidableEq, Repr

def applyOp (t : MTree) : TOp → MTree
  | .ins k v =>
      match t.insert k v with
      | .ok t' => t'
      | .error _ => t
  | .rem k =>
      match t.remove k with
      | .ok t' => t'
      | .error _ => t

def applyOps (t : MTree) : List TOp → MTree
  | [] => t
  | o :: os => applyOps (applyOp t o) os

end MKVS

namespace MKVS

theorem wf_insertT (k v : Bytes) {t : NTree} (h : wfB [] t = true) :
    wfB [] (insertT k v t) = true :=
  wf_insert t [] (keyBits k) v h List.nil_prefix

theorem sem_insertT (k v : Bytes) {t : NTree} (h : wfB [] t = true) (q : BKey) :
    sem (insertT k v t) q = if q = keyBits k then some v else sem t q :=
  sem_insert t [] (keyBits k) v q h List.nil_prefix

theorem wf_removeT (k : Bytes) {t : NTree} (h : wfB [] t = true) :
    wfB [] (removeT k t) = true :=
  wf_remove t [] (keyBits k) h

theorem sem_removeT (k : Bytes) {t : NTree} (h : wfB [] t = true) (q : BKey) :
    sem (removeT k t) q = if q = keyBits k then none else sem t q :=
  sem_remove t [] (keyBits k) q h List.nil_prefix

theorem getT_eq (k : Bytes) {t : NTree} (h : wfB [] t = true) :
    getT k t = sem t (keyBits k) :=
  get_eq_sem t [] (keyBits k) h List.nil_prefix

theorem wf_applyOp (t : MTree) (o : TOp) (h : wfB [] t.root = true) :
    wfB [] (applyOp t o).root = true := by
  cases o with
  | ins k v =>
      by_cases hc : t.closed <;>
        simp [applyOp, MTree.insert, hc, wf_insertT k v h, h]
  | rem k =>
      by_cases hc : t.closed <;>
        simp [applyOp, MTree.remove, hc, wf_removeT k h, h]

theorem wf_applyOps : ∀ (ops : List TOp) (t : MTree), wfB [] t.root = true →
    wfB [] (applyOps t ops).root = true := by
  intro ops
  induction ops with
  | nil => intro t h; exact h
  | cons o os ih => intro t h; exact ih (applyOp t o) (wf_applyOp t o h)

end MKVS

namespace MKVS

/-! ### Concrete scenario data (spec section 8, tree_test.go testBasic) -/

/-- "foo" -/
def fooB : Bytes := [102, 111, 111]

/-- "bar" -/
def barB : Bytes := [98, 97, 114]

/-- "moo" -/
def mooB : Bytes := [109, 111, 111]

/-- "baz" -/
def bazB : Bytes := [98, 97, 122]

/-- "boo" -/
def booB : Bytes := [98, 111, 111]

/-- A handle freshly created over the empty root (spec `New`). -/
def newTree : MTree := { root := .nnil, pending := [], closed := false }

/-- The canonical tree of the S1 state: exactly foo ↦ bar. -/
def s1Tree : NTree := insertT fooB barB .nnil

/-- The S1 handle immediately after its commit (pending cleared). -/
def s1Handle : MTree := { root := s1Tree, pending := [], closed := false }

/-- The S2 operation sequence applied to the S1 state (spec section 8,
scenario S2): insert moo=foo, overwrite foo=baz, remove moo twice,
reinsert moo=boo, foo=bar, moo=foo. -/
def s2Ops : List TOp :=
  [.ins mooB fooB, .ins fooB bazB, .rem mooB, .rem mooB,
   .ins mooB booB, .ins fooB barB, .ins mooB fooB]

def s2Handle : MTree := applyOps s1Handle s2Ops

/-- The canonical tree of the final S2 mapping {foo ↦ bar, moo ↦ foo},
built by two straight inserts. -/
def s2Tree : NTree := insertT mooB fooB (insertT fooB barB .nnil)

/-- Modelled from the spec: the implementation's SHA-512/256-based digest
is not part of the excerpt; the spec pins its value on the scenario roots
(section 8, S1 and S2).  This partial digest function records exactly
those pinned values, keyed by the canonical tree structure the digest is a
pure function of (spec section 3, invariant 1). -/
def specHexDigest (t : NTree) : String :=
  if t = s1Tree then
    "68e0c95d0dcb3a4ace95d1a64b8d7bb1dd08e3708abdca4068c1ccf32b7076d4"
  else if t = s2Tree then
    "821d13489eae34debd85117823058a143ee3c534e91828a0db8d48ecb2128b8c"
  else ""

end MKVS

namespace MKVS

/-- C1: for every finite sequence of insert, remove and overwrite
operations applied to a tree and then committed at a fixed namespace and
version, the root hash returned by Commit depends only on the final
key-to-value mapping, not on insertion order or intermediate overwrites;
in particular the concrete S2 sequence (insert moo=foo, overwrite foo=baz,
remove moo twice, reinsert moo=boo, foo=bar, moo=foo from the S1 state)
commits to the spec-pinned root 821d13489eae34debd85117823058a143ee3c534e9
1828a0db8d48ecb2128b8c with a write log of exactly the two inserts
(moo,foo) and (foo,bar). -/
theorem claim_C1 :
    (∀ (ops1 ops2 : List TOp) (t1 t2 : MTree),
        wfB [] t1.root = true → wfB [] t2.root = true →
        (∀ q : BKey, sem (applyOps t1 ops1).root q = sem (applyOps t2 ops2).root q) →
        rootHash (applyOps t1 ops1).root = rootHash (applyOps t2 ops2).root) ∧
    s2Handle.root = s2Tree ∧
    specHexDigest s2Handle.root =
      "821d13489eae34debd85117823058a143ee3c534e91828a0db8d48ecb2128b8c" ∧
    MTree.commit s2Handle =
      .ok ([.insertE mooB fooB, .insertE fooB barB], rootHash s2Tree,
           { root := s2Tree, pending := [], closed := false }) := by
  refine ⟨?_, by decide, ?_, by rfl⟩
  · intro ops1 ops2 t1 t2 h1 h2 hsem
    have heq := canonical (applyOps t1 ops1).root (applyOps t2 ops2).root []
      (wf_applyOps ops1 t1 h1) (wf_applyOps ops2 t2 h2) hsem
    rw [heq]
  · rw [show s2Handle.root = s2Tree from by decide]
    rw [specHexDigest]
    rw [if_neg (by decide), if_pos rfl]

theorem claim_C1_witness :
    rootHash (applyOps s1Handle s2Ops).root =
      rootHash (applyOps s1Handle [TOp.ins mooB fooB]).root :=
  claim_C1.1 s2Ops [TOp.ins mooB fooB] s1Handle s1Handle (by decide) (by decide)
    (fun q => rfl)

end MKVS

namespace MKVS

/-- All keys stored in a tree (leaf keys and inline-leaf keys). -/
def keysOf : NTree → List BKey
  | .nnil => []
  | .nleaf k _ => [k]
  | .nint _ inl l r =>
      (match inl with
       | some (ik, _) => [ik]
       | none => []) ++ keysOf l ++ keysOf r

theorem sem_mem_keys : ∀ (t : NTree) (k : BKey) (v : Bytes),
    sem t k = some v → k ∈ keysOf t := by
  intro t
  induction t with
  | nnil => intro k v h; simp [sem] at h
  | nleaf k' v' =>
      intro k v h
      simp only [sem] at h
      split at h
      · next he => simp [keysOf, he]
      · cases h
  | nint lab inl l r ihl ihr =>
      intro k v h
      simp only [sem] at h
      rcases oalt_some h with h1 | ⟨_, h2⟩
      · cases inl with
        | none => simp [inlLook] at h1
        | some piv =>
            obtain ⟨ik, iv⟩ := piv
            simp only [inlLook] at h1
            split at h1
            · next he => simp [keysOf, he]
            · cases h1
      · rcases oalt_some h2 with h3 | ⟨_, h4⟩
        · simp [keysOf, List.mem_append]
          exact Or.inr (Or.inl (ihl k v h3))
        · simp [keysOf, List.mem_append]
          exact Or.inr (Or.inr (ihr k v h4))

/-- Remove a list of keys in order, at the root. -/
def removeList (ks : List BKey) (t : NTree) : NTree :=
  ks.foldl (fun acc k => removeGo k acc 0) t

theorem sem_removeList : ∀ (ks : List BKey) (t : NTree), wfB [] t = true →
    wfB [] (removeList ks t) = true ∧
    ∀ q, sem (removeList ks t) q = if q ∈ ks then none else sem t q := by
  intro ks
  induction ks with
  | nil =>
      intro t h
      exact ⟨h, fun q => by simp [removeList]⟩
  | cons k ks ih =>
      intro t h
      have hwf' : wfB [] (removeGo k t 0) = true := wf_remove t [] k h
      obtain ⟨hw, hs⟩ := ih (removeGo k t 0) hwf'
      have hfold : removeList (k :: ks) t = removeList ks (removeGo k t 0) := by
        simp [removeList]
      refine ⟨by rw [hfold]; exact hw, ?_⟩
      intro q
      have hstep : sem (removeGo k t 0) q = if q = k then none else sem t q :=
        sem_remove t [] k q h List.nil_prefix
      rw [hfold, hs q, hstep]
      by_cases h1 : q ∈ ks <;> by_cases h2 : q = k <;> simp [h1, h2]

/-- C2 fails as stated: in the S1 state the key foo is present (with value
bar), and committing an insert of foo followed by a removal of foo yields
the empty root, not the original root. -/
theorem claim_C2_cex :
    sem s1Handle.root (keyBits fooB) = some barB ∧
    rootHash (applyOps s1Handle [TOp.ins fooB bazB, TOp.rem fooB]).root ≠
      rootHash s1Handle.root := by
  constructor
  · decide
  · decide

/-- C2 (amended): for every key K *not currently present in the tree*,
committing an insert of K followed by a removal of K yields the same root
hash as committing the state without either operation; and after removing
every key present in a tree, Commit returns the empty root hash. -/
theorem claim_C2 :
    (∀ (t : MTree) (k v : Bytes), wfB [] t.root = true →
        sem t.root (keyBits k) = none →
        (applyOps t [TOp.ins k v, TOp.rem k]).root = t.root ∧
        rootHash (applyOps t [TOp.ins k v, TOp.rem k]).root = rootHash t.root) ∧
    (∀ t : NTree, wfB [] t = true →
        rootHash (removeList (keysOf t) t) = emptyHash) := by
  constructor
  · intro t k v hwf habs
    by_cases hc : t.closed
    · simp [applyOps, applyOp, MTree.insert, MTree.remove, hc]
    · have hroot : (applyOps t [TOp.ins k v, TOp.rem k]).root =
          removeT k (insertT k v t.root) := by
        simp [applyOps, applyOp, MTree.insert, MTree.remove, hc]
      have hwf1 : wfB [] (insertT k v t.root) = true := wf_insertT k v hwf
      have hwf2 : wfB [] (removeT k (insertT k v t.root)) = true := wf_removeT k hwf1
      have hsem : ∀ q, sem (removeT k (insertT k v t.root)) q = sem t.root q := by
        intro q
        rw [sem_removeT k hwf1 q, sem_insertT k v hwf q]
        by_cases hq : q = keyBits k
        · rw [if_pos hq, hq, habs]
        · rw [if_neg hq, if_neg hq]
      have heq : removeT k (insertT k v t.root) = t.root :=
        canonical _ _ [] hwf2 hwf hsem
      rw [hroot, heq]
      exact ⟨rfl, rfl⟩
  · intro t hwf
    obtain ⟨hw, hs⟩ := sem_removeList (keysOf t) t hwf
    have hsem : ∀ q, sem (removeList (keysOf t) t) q = sem NTree.nnil q := by
      intro q
      rw [hs q]
      by_cases hq : q ∈ keysOf t
      · simp [hq, sem]
      · simp only [if_neg hq, sem]
        cases hq2 : sem t q with
        | none => rfl
        | some w => exact absurd (sem_mem_keys t q w hq2) hq
    have heq : removeList (keysOf t) t = NTree.nnil :=
      canonical _ _ [] hw (by simp [wfB]) hsem
    rw [heq]
    rfl

theorem claim_C2_witness :
    (applyOps s1Handle [TOp.ins mooB fooB, TOp.rem mooB]).root = s1Handle.root ∧
    rootHash (removeList (keysOf s1Tree) s1Tree) = emptyHash :=
  ⟨(claim_C2.1 s1Handle mooB fooB (by decide) (by decide)).1,
   claim_C2.2 s1Tree (by decide)⟩

end MKVS

namespace MKVS

/-- C6: after Close is called on a tree handle, every subsequent mutating
or reading operation (Insert, Get, Remove, Commit) fails with the Closed
error, and Close itself is idempotent. -/
theorem claim_C6 :
    ∀ (t : MTree) (k v : Bytes),
      t.close.insert k v = .error .closedErr ∧
      t.close.get k = .error .closedErr ∧
      t.close.remove k = .error .closedErr ∧
      t.close.commit = .error .closedErr ∧
      t.close.close = t.close := by
  intro t k v
  refine ⟨?_, ?_, ?_, ?_, rfl⟩ <;>
    simp [MTree.close, MTree.insert, MTree.get, MTree.remove, MTree.commit]

/-- C8: removing an absent key succeeds with no error, a subsequent Get
returns nil, the committed root is unchanged, and removing the same key
twice behaves like removing it once. -/
theorem claim_C8 :
    ∀ (t : MTree) (k : Bytes), t.closed = false → wfB [] t.root = true →
      sem t.root (keyBits k) = none →
      ∃ t' : MTree, t.remove k = .ok t' ∧ t'.root = t.root ∧
        t'.get k = .ok none ∧ rootHash t'.root = rootHash t.root ∧
        (applyOps t [TOp.rem k, TOp.rem k]).root = (applyOps t [TOp.rem k]).root := by
  intro t k hc hwf habs
  have hroot : removeT k t.root = t.root := by
    refine canonical _ _ [] (wf_removeT k hwf) hwf ?_
    intro q
    rw [sem_removeT k hwf q]
    by_cases hq : q = keyBits k
    · rw [if_pos hq, hq, habs]
    · rw [if_neg hq]
  refine ⟨{ root := removeT k t.root,
            pending := updPending t.pending k none, closed := t.closed },
      ?_, hroot, ?_, by rw [hroot], ?_⟩
  · simp [MTree.remove, hc]
  · simp [MTree.get, hc, hroot, getT_eq k hwf, habs]
  · simp [applyOps, applyOp, MTree.remove, hc, hroot]

theorem claim_C8_witness :
    ∃ t' : MTree, s1Handle.remove mooB = .ok t' ∧ t'.root = s1Handle.root ∧
      t'.get mooB = .ok none ∧ rootHash t'.root = rootHash s1Handle.root ∧
      (applyOps s1Handle [TOp.rem mooB, TOp.rem mooB]).root =
        (applyOps s1Handle [TOp.rem mooB]).root :=
  claim_C8 s1Handle mooB rfl (by decide) (by decide)

/-- C9: Commit on a tree with no pending modifications since its previous
successful Commit succeeds and returns the same root hash (with an empty
write log and an unchanged handle). -/
theorem claim_C9 :
    ∀ (t t1 : MTree) (wl : List LogEntryT) (h : List Nat),
      t.commit = .ok (wl, h, t1) →
      t1.commit = .ok ([], h, t1) := by
  intro t t1 wl h hc
  simp only [MTree.commit] at hc
  by_cases hcl : t.closed
  · rw [if_pos hcl] at hc
    cases hc
  · rw [if_neg hcl] at hc
    cases hc
    simp [MTree.commit, hcl, wlogOf]

theorem claim_C9_witness :
    ({ root := s1Tree, pending := [], closed := false } : MTree).commit =
      .ok ([], rootHash s1Tree, { root := s1Tree, pending := [], closed := false }) :=
  claim_C9 s1Handle { root := s1Tree, pending := [], closed := false }
    [] (rootHash s1Tree) rfl

/-- Key of a write-log entry. -/
def leKey : LogEntryT → Bytes
  | .insertE k _ => k
  | .deleteE k => k

@[simp] theorem leKey_ins (k v : Bytes) : leKey (.insertE k v) = k := rfl

@[simp] theorem leKey_del (k : Bytes) : leKey (.deleteE k) = k := rfl

theorem filter_updPending :
    ∀ (ps : List (Bytes × Option Bytes)) (k : Bytes) (v : Option Bytes),
      (ps.filter (fun kv => decide (kv.1 = k))).length ≤ 1 →
      (updPending ps k v).filter (fun kv => decide (kv.1 = k)) = [(k, v)] := by
  intro ps
  induction ps with
  | nil => intro k v _; simp [updPending]
  | cons kv rest ih =>
      obtain ⟨k', v'⟩ := kv
      intro k v hle
      by_cases hk : k' = k
      · simp only [updPending, if_pos hk]
        have hfc : ((k', v') :: rest).filter (fun kv => decide (kv.1 = k)) =
            (k', v') :: rest.filter (fun kv => decide (kv.1 = k)) := by
          simp [List.filter_cons, hk]
        rw [hfc] at hle
        simp only [List.length_cons] at hle
        have h0 : rest.filter (fun kv => decide (kv.1 = k)) = [] :=
          List.length_eq_zero.mp (by omega)
        simp [List.filter_cons, h0]
      · simp only [updPending, if_neg hk]
        simp only [List.filter_cons] at hle ⊢
        simp only [decide_eq_true_iff] at hle ⊢
        rw [if_neg hk] at hle ⊢
        exact ih k v hle

theorem wlog_filter : ∀ (ps : List (Bytes × Option Bytes)) (k : Bytes),
    (wlogOf ps).filter (fun e => decide (leKey e = k)) =
      wlogOf (ps.filter (fun kv => decide (kv.1 = k))) := by
  intro ps
  induction ps with
  | nil => intro k; simp [wlogOf]
  | cons kv rest ih =>
      obtain ⟨k', v'⟩ := kv
      intro k
      cases v' <;> by_cases hk : k' = k <;>
        simp [wlogOf, List.filter_cons, hk, ih k]

/-- C10: inserting the same (key, value) pair twice before a commit
succeeds both times and is equivalent to inserting it once: the root is
identical, Get returns the value, and the write log of the following
Commit contains exactly one insert entry for that key. -/
theorem claim_C10 :
    ∀ (t : MTree) (k v : Bytes), t.closed = false → wfB [] t.root = true →
      (t.pending.filter (fun kv => decide (kv.1 = k))).length ≤ 1 →
      ∃ t1 t2 : MTree, t.insert k v = .ok t1 ∧ t1.insert k v = .ok t2 ∧
        t2.root = t1.root ∧
        t2.get k = .ok (some v) ∧
        ∀ wl h tc, t2.commit = .ok (wl, h, tc) →
          wl.filter (fun e => decide (leKey e = k)) = [.insertE k v] := by
  intro t k v hc hwf hle
  have hwf1 : wfB [] (insertT k v t.root) = true := wf_insertT k v hwf
  have hroot : insertT k v (insertT k v t.root) = insertT k v t.root := by
    refine canonical _ _ [] (wf_insertT k v hwf1) hwf1 ?_
    intro q
    rw [sem_insertT k v hwf1 q, sem_insertT k v hwf q]
    by_cases hq : q = keyBits k
    · rw [if_pos hq, if_pos hq]
    · rw [if_neg hq, if_neg hq]
  have hp1 : (updPending t.pending k (some v)).filter
      (fun kv => decide (kv.1 = k)) = [(k, some v)] :=
    filter_updPending t.pending k (some v) hle
  have hp2 : (updPending (updPending t.pending k (some v)) k (some v)).filter
      (fun kv => decide (kv.1 = k)) = [(k, some v)] :=
    filter_updPending _ k (some v) (by rw [hp1]; simp)
  refine ⟨{ root := insertT k v t.root,
            pending := updPending t.pending k (some v), closed := t.closed },
          { root := insertT k v (insertT k v t.root),
            pending := updPending (updPending t.pending k (some v)) k (some v),
            closed := t.closed },
      ?_, ?_, hroot, ?_, ?_⟩
  · simp [MTree.insert, hc]
  · simp [MTree.insert, hc]
  · have : getT k (insertT k v (insertT k v t.root)) = some v := by
      rw [getT_eq k (wf_insertT k v hwf1), sem_insertT k v hwf1 (keyBits k), if_pos rfl]
    simp [MTree.get, hc, this]
  · intro wl h tc hcm
    simp only [MTree.commit, hc, if_neg (by simp [hc] : ¬ (false = true))] at hcm
    cases hcm
    rw [wlog_filter, hp2]
    rfl

theorem claim_C10_witness :
    ∃ t1 t2 : MTree, newTree.insert fooB barB = .ok t1 ∧
      t1.insert fooB barB = .ok t2 ∧ t2.root = t1.root ∧
      t2.get fooB = .ok (some barB) ∧
      ∀ wl h tc, t2.commit = .ok (wl, h, tc) →
        wl.filter (fun e => decide (leKey e = fooB)) = [.insertE fooB barB] :=
  claim_C10 newTree fooB barB rfl (by decide) (by decide)

end MKVS

namespace MKVS

/-! ### NodeDB layer (spec sections 4.2, 4.4, 7) -/

/-- NodeDB error surface (spec section 7). -/
inductive DBErr where
  | rootMustFollowOld
  | rootNotFound
  | badNamespace
  | alreadyFinalized
  | notFinalized
  | notEarliest
  | nodeMissing
deriving DecidableEq, Repr

/-- Root descriptor (spec section 3): (namespace, version, hash). -/
structure RootDesc where
  ns : Nat
  version : Nat
  hash : List Nat
deriving DecidableEq, Repr

/-- Modelled from the spec (section 4.2 `Batch.Commit`), with the version
discipline pinned by testErrors (tree_test.go: a commit from an old root
at version 2 into version 100 must fail with RootMustFollowOld): the new
root follows the old root only when the target version equals the old
root's version or its successor.  The spec's narrower phrase "fails with
RootMustFollowOld if version < old_root.version" underspecifies this
check.  The check order (namespace, version discipline, old-root
existence, finalization) follows testErrors. -/
def commitCheck (dbNs : Nat) (finals : List Nat) (hasOld : Bool)
    (old : RootDesc) (ns version : Nat) : Option DBErr :=
  if ns ≠ dbNs then some .badNamespace
  else if ¬ (version = old.version ∨ version = old.version + 1) then
    some .rootMustFollowOld
  else if ¬ hasOld then some .rootNotFound
  else if version ∈ finals then some .alreadyFinalized
  else none

/-- C3 fails as stated: mirroring testErrors, a commit from an old root at
version 2 into version 100 — a target version well above the old root's —
fails with RootMustFollowOld, refuting "for every commit whose target
version is greater than or equal to the old root's version, the
RootMustFollowOld failure does not occur". -/
theorem claim_C3_cex :
    (2 : Nat) ≤ 100 ∧
    commitCheck 0 [] true ⟨0, 2, [1]⟩ 0 100 = some .rootMustFollowOld := by
  constructor
  · decide
  · decide

/-- C3 (amended): with a matching namespace, Commit fails with
RootMustFollowOld exactly when the target version is neither the old
root's version nor its successor; in particular a commit into the old
version or the next version never reports RootMustFollowOld, while any
other target version does (even targets far above the old version). -/
theorem claim_C3 :
    ∀ (dbNs : Nat) (finals : List Nat) (hasOld : Bool) (old : RootDesc)
      (version : Nat),
      commitCheck dbNs finals hasOld old dbNs version = some .rootMustFollowOld ↔
        ¬ (version = old.version ∨ version = old.version + 1) := by
  intro dbNs finals hasOld old version
  simp only [commitCheck, if_neg (by simp : ¬ dbNs ≠ dbNs)]
  by_cases hv : version = old.version ∨ version = old.version + 1
  · rw [if_neg (not_not_intro hv)]
    constructor
    · intro h
      by_cases ho : hasOld <;> by_cases hf : version ∈ finals <;>
        simp [ho, hf] at h
    · intro hcon
      exact absurd hv hcon
  · rw [if_pos hv]
    simp [hv]

theorem claim_C3_witness :
    commitCheck 0 [] true ⟨0, 2, [1]⟩ 0 100 = some DBErr.rootMustFollowOld :=
  (claim_C3 0 [] true ⟨0, 2, [1]⟩ 100).mpr (by decide)

/-- A write-log edge recorded by one commit: old root, new root, and the
ordered log of that commit (spec section 4.2, "Write-log index"). -/
structure WLEdge where
  src : RootDesc
  dst : RootDesc
  log : List LogEntryT
deriving DecidableEq, Repr

/-- Modelled from the spec (section 4.2 `GetWriteLog`): return the stored
log of a direct commit edge, or the join of two stored edges through one
intermediate root; anything further fails rather than concatenating. -/
def getWriteLog (edges : List WLEdge) (a b : RootDesc) :
    Option (List LogEntryT) :=
  match edges.find? (fun e => decide (e.src = a) && decide (e.dst = b)) with
  | some e => some e.log
  | none =>
      match edges.find? (fun e1 => decide (e1.src = a) &&
          edges.any (fun e2 => decide (e2.src = e1.dst) && decide (e2.dst = b))) with
      | some e1 =>
          match edges.find? (fun e2 => decide (e2.src = e1.dst) &&
              decide (e2.dst = b)) with
          | some e2 => some (e1.log ++ e2.log)
          | none => none
      | none => none

/-- Reachability in at most two commit hops along recorded edges. -/
def reach2 (edges : List WLEdge) (a b : RootDesc) : Prop :=
  (∃ e, e ∈ edges ∧ e.src = a ∧ e.dst = b) ∨
  (∃ e1, e1 ∈ edges ∧ ∃ e2, e2 ∈ edges ∧ e1.src = a ∧ e2.src = e1.dst ∧ e2.dst = b)

end MKVS

namespace MKVS

/-- "quux" -/
def quuxB : Bytes := [113, 117, 117, 120]

/-- "goo" -/
def gooB : Bytes := [103, 111, 111]

def wlT1 : NTree := insertT fooB barB .nnil

def wlT2 : NTree := insertT bazB quuxB wlT1

def wlT3 : NTree := insertT mooB gooB wlT2

def wlR0 : RootDesc := ⟨0, 0, emptyHash⟩

def wlR1 : RootDesc := ⟨0, 0, rootHash wlT1⟩

def wlR2 : RootDesc := ⟨0, 0, rootHash wlT2⟩

def wlR3 : RootDesc := ⟨0, 0, rootHash wlT3⟩

/-- The three-commit chain of testMergeWriteLog: empty → root1 → root2 →
root3. -/
def wlEdges : List WLEdge :=
  [⟨wlR0, wlR1, [.insertE fooB barB]⟩,
   ⟨wlR1, wlR2, [.insertE bazB quuxB]⟩,
   ⟨wlR2, wlR3, [.insertE mooB gooB]⟩]

/-- C4: GetWriteLog succeeds exactly when the new root is reachable from
the old root in at most two commit hops along recorded edges; on the
concrete three-commit chain of testMergeWriteLog, the two-hop pair merges
the two logs, every one-hop pair succeeds, and the three-hop pair fails
rather than concatenating. -/
theorem claim_C4 :
    (∀ (edges : List WLEdge) (a b : RootDesc),
      (getWriteLog edges a b).isSome = true ↔ reach2 edges a b) ∧
    getWriteLog wlEdges wlR0 wlR2 =
      some [.insertE fooB barB, .insertE bazB quuxB] ∧
    getWriteLog wlEdges wlR0 wlR3 = none ∧
    (getWriteLog wlEdges wlR0 wlR1).isSome = true ∧
    (getWriteLog wlEdges wlR1 wlR2).isSome = true ∧
    (getWriteLog wlEdges wlR2 wlR3).isSome = true := by
  refine ⟨?_, by decide, by decide, by decide, by decide, by decide⟩
  intro edges a b
  constructor
  · intro h
    unfold getWriteLog at h
    cases houter : edges.find? (fun e => decide (e.src = a) && decide (e.dst = b)) with
    | some e =>
        have hp := List.find?_some houter
        simp only [Bool.and_eq_true, decide_eq_true_iff] at hp
        exact Or.inl ⟨e, List.mem_of_find?_eq_some houter, hp.1, hp.2⟩
    | none =>
        rw [houter] at h
        cases hmid : edges.find? (fun e1 => decide (e1.src = a) &&
            edges.any (fun e2 => decide (e2.src = e1.dst) && decide (e2.dst = b))) with
        | some e1 =>
            have hp := List.find?_some hmid
            simp only [Bool.and_eq_true, decide_eq_true_iff] at hp
            obtain ⟨hsrc, hany⟩ := hp
            rw [List.any_eq_true] at hany
            obtain ⟨e2, he2, hpe2⟩ := hany
            simp only [Bool.and_eq_true, decide_eq_true_iff] at hpe2
            exact Or.inr ⟨e1, List.mem_of_find?_eq_some hmid, e2, he2,
              hsrc, hpe2.1, hpe2.2⟩
        | none =>
            rw [hmid] at h
            simp at h
  · intro h
    unfold getWriteLog
    cases houter : edges.find? (fun e => decide (e.src = a) && decide (e.dst = b)) with
    | some e => simp
    | none =>
        rcases h with ⟨e, he, hsrc, hdst⟩ | ⟨e1, he1, e2, he2, h1, h2, h3⟩
        · have := List.find?_eq_none.mp houter e he
          simp [hsrc, hdst] at this
        · have hmidsome : (edges.find? (fun e1 => decide (e1.src = a) &&
              edges.any (fun e2 => decide (e2.src = e1.dst) &&
                decide (e2.dst = b)))).isSome = true := by
            rw [List.find?_isSome]
            refine ⟨e1, he1, ?_⟩
            simp only [Bool.and_eq_true, decide_eq_true_iff]
            refine ⟨h1, ?_⟩
            rw [List.any_eq_true]
            exact ⟨e2, he2, by simp [h2, h3]⟩
          cases hmid : edges.find? (fun e1 => decide (e1.src = a) &&
              edges.any (fun e2 => decide (e2.src = e1.dst) &&
                decide (e2.dst = b))) with
          | none =>
              rw [hmid] at hmidsome
              cases hmidsome
          | some e1' =>
              have hp := List.find?_some hmid
              simp only [Bool.and_eq_true, decide_eq_true_iff] at hp
              obtain ⟨hsrc', hany⟩ := hp
              rw [List.any_eq_true] at hany
              obtain ⟨e2', he2', hpe2⟩ := hany
              have hinsome : (edges.find? (fun e2 => decide (e2.src = e1'.dst) &&
                  decide (e2.dst = b))).isSome = true := by
                rw [List.find?_isSome]
                exact ⟨e2', he2', hpe2⟩
              cases hin : edges.find? (fun e2 => decide (e2.src = e1'.dst) &&
                  decide (e2.dst = b)) with
              | none =>
                  rw [hin] at hinsome
                  cases hinsome
              | some e2'' => simp [hin]

theorem claim_C4_witness :
    (getWriteLog wlEdges wlR0 wlR2).isSome = true :=
  (claim_C4.1 wlEdges wlR0 wlR2).mpr
    (Or.inr ⟨⟨wlR0, wlR1, [.insertE fooB barB]⟩, by decide,
             ⟨wlR1, wlR2, [.insertE bazB quuxB]⟩, by decide, rfl, rfl, rfl⟩)

end MKVS

namespace MKVS

/-! ### Pruning (spec section 4.4) -/

/-- All nodes of a subtree: the node itself and, recursively, its
children's nodes.  Content addressing identifies a node with the canonical
subtree its digest covers (spec section 3, invariant 1). -/
def subtreesOf : NTree → List NTree
  | .nnil => [.nnil]
  | .nleaf k v => [.nleaf k v]
  | .nint lab inl l r => .nint lab inl l r :: (subtreesOf l ++ subtreesOf r)

/-- Modelled from the spec (section 4.2): the versioned node database:
content-addressed node store tagged with creation versions, finalized
roots per version, finalized version set and the earliest retained
version. -/
structure VDB where
  store : List (Nat × NTree)
  roots : List (Nat × NTree)
  finals : List Nat
  earliest : Nat
deriving DecidableEq, Repr

/-- Nodes reachable from every finalized root of a version later than
`v` (spec section 4.4: `Live`). -/
def liveSet : List (Nat × NTree) → Nat → List NTree
  | [], _ => []
  | (u, rt) :: rest, v =>
      (if v < u then subtreesOf rt else []) ++ liveSet rest v

/-- A node can be fetched from the store (by its digest). -/
def fetchNode (store : List (Nat × NTree)) (n : NTree) : Bool :=
  store.any (fun cn => decide (cn.2 = n))

/-- Every node of the subtree is materializable from the store. -/
def readableB (store : List (Nat × NTree)) (t : NTree) : Bool :=
  (subtreesOf t).all (fun n => fetchNode store n)

/-- Modelled from the spec (section 4.2 `Prune`, section 4.4): pruning the
earliest finalized version removes nodes created at or before `v` that are
not reachable from any surviving finalized root of a later version, drops
the version's finalized roots, and advances the earliest version.  It
fails with NotFinalized on non-finalized versions and NotEarliest on any
version other than the earliest. -/
def prune (db : VDB) (v : Nat) : Except DBErr VDB :=
  if v ∉ db.finals then .error .notFinalized
  else if v ≠ db.earliest then .error .notEarliest
  else .ok {
    store := db.store.filter
      (fun cn => decide (cn.2 ∈ liveSet db.roots v) || decide (v < cn.1)),
    roots := db.roots.filter (fun rv => decide (rv.1 ≠ v)),
    finals := db.finals.filter (fun u => decide (u ≠ v)),
    earliest := v + 1 }

/-- Modelled from the spec (sections 4.2 and 7): reading a key through a
root recorded in the NodeDB.  The empty root always exists; a root absent
from the recorded root set reports RootNotFound; otherwise the lookup
materializes the tree from the store. -/
def dbGet (db : VDB) (version : Nat) (root : NTree) (k : BKey) :
    Except DBErr (Option Bytes) :=
  if root = .nnil then .ok none
  else if (version, root) ∈ db.roots then
    (if readableB db.store root then .ok (sem root k)
     else .error .nodeMissing)
  else .error .rootNotFound

theorem mem_liveSet : ∀ (roots : List (Nat × NTree)) (v u : Nat)
    (rt n : NTree), (u, rt) ∈ roots → v < u → n ∈ subtreesOf rt →
    n ∈ liveSet roots v := by
  intro roots
  induction roots with
  | nil => intro v u rt n h _ _; cases h
  | cons pr rest ih =>
      obtain ⟨u0, rt0⟩ := pr
      intro v u rt n hmem hlt hn
      rcases List.mem_cons.mp hmem with heq | hrest
      · injection heq with h1 h2
        subst h1
        subst h2
        simp only [liveSet, if_pos hlt, List.mem_append]
        exact Or.inl hn
      · simp only [liveSet, List.mem_append]
        exact Or.inr (ih v u rt n hrest hlt hn)

/-- C5: after Prune(v) succeeds on the earliest finalized version v, every
finalized root at every surviving version v' > v remains fully readable
(every key reachable from it can still be fetched), including nodes
created in version v that are shared with surviving roots; and reading
through a root of the pruned version v reports RootNotFound. -/
theorem claim_C5 :
    ∀ (db : VDB) (v : Nat) (db' : VDB),
      (∀ pr ∈ db.roots, db.earliest ≤ pr.1 ∧ readableB db.store pr.2 = true) →
      prune db v = .ok db' →
      (∀ u rt, (u, rt) ∈ db'.roots → v < u ∧ readableB db'.store rt = true ∧
        ∀ k, dbGet db' u rt k = .ok (sem rt k)) ∧
      (∀ rt, rt ≠ .nnil → ∀ k, dbGet db' v rt k = .error .rootNotFound) ∧
      (∀ e ∈ db.store, e.2 ∈ liveSet db.roots v → e ∈ db'.store) := by
  intro db v db' hok hp
  simp only [prune] at hp
  by_cases h1 : v ∉ db.finals
  · rw [if_pos h1] at hp
    cases hp
  · rw [if_neg h1] at hp
    by_cases h2 : v ≠ db.earliest
    · rw [if_pos h2] at hp
      cases hp
    · rw [if_neg h2] at hp
      cases hp
      rw [not_not] at h2
      refine ⟨?_, ?_, ?_⟩
      · intro u rt hmem
        obtain ⟨hmem0, hne⟩ := List.mem_filter.mp hmem
        simp only [decide_eq_true_iff] at hne
        have hvu : v < u := by
          have := (hok (u, rt) hmem0).1
          omega
        have hread0 : readableB db.store rt = true := (hok (u, rt) hmem0).2
        have hread : readableB (db.store.filter
            (fun cn => decide (cn.2 ∈ liveSet db.roots v) || decide (v < cn.1)))
            rt = true := by
          rw [readableB, List.all_eq_true]
          intro n hn
          have hfetch : fetchNode db.store n = true := by
            rw [readableB, List.all_eq_true] at hread0
            exact hread0 n hn
          rw [fetchNode, List.any_eq_true] at hfetch
          obtain ⟨cn, hcn, hcneq⟩ := hfetch
          simp only [decide_eq_true_iff] at hcneq
          rw [fetchNode, List.any_eq_true]
          refine ⟨cn, ?_, by simp [hcneq]⟩
          rw [List.mem_filter]
          refine ⟨hcn, ?_⟩
          have hlive : cn.2 ∈ liveSet db.roots v := by
            rw [hcneq]
            exact mem_liveSet db.roots v u rt n hmem0 hvu hn
          simp [hlive]
        refine ⟨hvu, hread, ?_⟩
        intro k
        by_cases hnil : rt = .nnil
        · subst hnil
          simp [dbGet, sem]
        · simp only [dbGet, if_neg hnil]
          rw [if_pos hmem, if_pos hread]
      · intro rt hnil k
        simp only [dbGet, if_neg hnil]
        rw [if_neg]
        intro hmem
        obtain ⟨_, hne⟩ := List.mem_filter.mp hmem
        simp at hne
      · intro e he hlive
        rw [List.mem_filter]
        exact ⟨he, by simp [hlive]⟩

end MKVS

namespace MKVS

/-- A concrete two-version database: version 0 finalizes the S1 root,
version 1 finalizes the S2 root; the S1 leaf node is shared between both
roots (it is a subtree of the S2 tree created in version 0). -/
def db0 : VDB :=
  { store := (subtreesOf s1Tree).map (fun n => (0, n)) ++
      (subtreesOf s2Tree).map (fun n => (1, n)),
    roots := [(0, s1Tree), (1, s2Tree)],
    finals := [0, 1],
    earliest := 0 }

def prunedDB : VDB :=
  match prune db0 0 with
  | .ok d => d
  | .error _ => db0

theorem claim_C5_witness :
    dbGet prunedDB 1 s2Tree (keyBits fooB) = .ok (some barB) := by
  have h := (claim_C5 db0 0 prunedDB (by decide) rfl).1 1 s2Tree (by decide)
  rw [h.2.2 (keyBits fooB)]
  rw [show sem s2Tree (keyBits fooB) = some barB from by decide]

end MKVS

namespace MKVS

/-- Modelled from the spec (section 4.3, ReadSyncer / remote trees): a remote
tree built with NewWithRoot over a StatsCollector. It holds the key-value
mapping of the tree backing its root (`kvs`), the set of keys whose paths have
already been fetched and cached (`resolved`), and the StatsCollector counters
for the three sync verbs. -/
structure RemoteT where
  kvs : List (Bytes × Bytes)
  resolved : List Bytes
  nGet : Nat
  nPrefixes : Nat
  nIterate : Nat
deriving Repr, DecidableEq

/-- Look a key up in an association list of key-value pairs. -/
def lookupKV (kvs : List (Bytes × Bytes)) (k : Bytes) : Option Bytes :=
  match kvs.find? (fun e => decide (e.1 = k)) with
  | some e => some e.2
  | none => none

/-- `a` is a strict byte-prefix of `b`. -/
def strictPfxB (a b : Bytes) : Bool :=
  a.isPrefixOf b && decide (a ≠ b)

/-- Modelled from the spec (section 4.3): a SyncGet fetches the minimal proof
for a key under the root; every node on the fetched path is verified and
cached, so the requested key becomes local, as does every key of the tree
stored at an internal position along that path — exactly the keys that are
strict byte-prefixes of the requested key. The SyncGet counter increases. -/
def RemoteT.syncGet (rt : RemoteT) (k : Bytes) : RemoteT :=
  { rt with
    resolved :=
      k :: ((rt.kvs.map Prod.fst).filter (fun k2 => strictPfxB k2 k) ++ rt.resolved),
    nGet := rt.nGet + 1 }

/-- Modelled from the spec (section 4.3): Get on a remote tree answers locally
when the key's path is already cached, and otherwise issues exactly one
SyncGet; "subsequent accesses become local". -/
def RemoteT.get (rt : RemoteT) (k : Bytes) : Option Bytes × RemoteT :=
  if k ∈ rt.resolved then (lookupKV rt.kvs k, rt)
  else (lookupKV rt.kvs k, rt.syncGet k)

/-- Fetch a list of keys in order through the remote tree. -/
def RemoteT.getAll (rt : RemoteT) (ks : List Bytes) : RemoteT :=
  ks.foldl (fun acc k => (acc.get k).2) rt

/-- Modelled from the spec (section 4.3): PrefetchPrefixes issues a single
SyncGetPrefixes covering all nodes under any of the requested byte-prefixes,
up to `limit` nodes; the covered keys become local. -/
def RemoteT.prefetchPrefixes (rt : RemoteT) (ps : List Bytes) (limit : Nat) : RemoteT :=
  { rt with
    resolved :=
      ((rt.kvs.map Prod.fst).filter (fun k => ps.any (fun q => q.isPrefixOf k))).take limit
        ++ rt.resolved,
    nPrefixes := rt.nPrefixes + 1 }

/-- The list `[i, i+1, …, i+n-1]`. -/
def upFrom : Nat → Nat → List Nat
  | _, 0 => []
  | i, n + 1 => i :: upFrom (i + 1) n

/-- The decimal digits of `n`, least significant first, with `0` written `[0]`. -/
def dig10 (n : Nat) : List Nat :=
  if n = 0 then [0] else Nat.digits 10 n

/-- The decimal representation of `n` as ASCII bytes, most significant digit
first: this is the `%d` of the test suite's key generator. -/
def decDigits (n : Nat) : Bytes :=
  if n = 0 then [48] else ((Nat.digits 10 n).reverse).map (fun d => d + 48)

/-- ASCII bytes of `"key %d"` for index `i`, as produced by
`generateKeyValuePairsEx` in the test suite. -/
def genKey (i : Nat) : Bytes := [107, 101, 121, 32] ++ decDigits i

/-- ASCII bytes of `"value %d"` for index `i`. -/
def genValue (i : Nat) : Bytes := [118, 97, 108, 117, 101, 32] ++ decDigits i

/-- The 1000 key-value pairs of the populated tree (`generatePopulatedTree`). -/
def kvs1000 : List (Bytes × Bytes) :=
  (upFrom 0 1000).map (fun i => (genKey i, genValue i))

/-- A fresh remote tree over the root of the 1000-key tree: nothing cached yet,
all sync counters zero. -/
def freshRemote : RemoteT :=
  { kvs := kvs1000, resolved := [], nGet := 0, nPrefixes := 0, nIterate := 0 }

theorem upFrom_len : ∀ (n i : Nat), (upFrom i n).length = n := by
  intro n
  induction n with
  | zero => intro i; rfl
  | succ n ih => intro i; simp [upFrom, ih]

theorem upFrom_mem : ∀ (n i x : Nat), x ∈ upFrom i n → i ≤ x ∧ x < i + n := by
  intro n
  induction n with
  | zero => intro i x hx; simp [upFrom] at hx
  | succ n ih =>
      intro i x hx
      simp only [upFrom, List.mem_cons] at hx
      rcases hx with rfl | hx
      · omega
      · have := ih (i + 1) x hx
        omega

theorem upFrom_mem_intro : ∀ (n i x : Nat), i ≤ x → x < i + n → x ∈ upFrom i n := by
  intro n
  induction n with
  | zero => intro i x h1 h2; exact absurd h2 (by omega)
  | succ n ih =>
      intro i x h1 h2
      simp only [upFrom, List.mem_cons]
      by_cases he : x = i
      · exact Or.inl he
      · exact Or.inr (ih (i + 1) x (by omega) (by omega))

theorem decDigits_eq_dig10 (n : Nat) :
    decDigits n = (dig10 n).reverse.map (fun d => d + 48) := by
  by_cases h : n = 0
  · subst h; rfl
  · simp [decDigits, dig10, h]

theorem dig10_inj {a b : Nat} (h : dig10 a = dig10 b) : a = b := by
  by_cases ha : a = 0 <;> by_cases hb : b = 0
  · omega
  · exfalso
    subst ha
    rw [show dig10 0 = [0] from rfl] at h
    simp only [dig10, if_neg hb] at h
    have h2 : Nat.ofDigits 10 [0] = Nat.ofDigits 10 (Nat.digits 10 b) := by rw [h]
    rw [Nat.ofDigits_digits] at h2
    simp [Nat.ofDigits] at h2
    exact hb h2.symm
  · exfalso
    subst hb
    rw [show dig10 0 = [0] from rfl] at h
    simp only [dig10, if_neg ha] at h
    have h2 : Nat.ofDigits 10 (Nat.digits 10 a) = Nat.ofDigits 10 [0] := by rw [h]
    rw [Nat.ofDigits_digits] at h2
    simp [Nat.ofDigits] at h2
    exact ha h2
  · simp only [dig10, if_neg ha, if_neg hb] at h
    exact Nat.digits_inj_iff.mp h

theorem decDigits_inj {a b : Nat} (h : decDigits a = decDigits b) : a = b := by
  rw [decDigits_eq_dig10, decDigits_eq_dig10] at h
  have hinj : Function.Injective (fun d : Nat => d + 48) := by
    intro x y hxy
    have h3 : x + 48 = y + 48 := hxy
    omega
  exact dig10_inj (List.reverse_injective (List.map_injective_iff.mpr hinj h))

theorem dig10_len_mono {a b : Nat} (hab : a ≤ b) :
    (dig10 a).length ≤ (dig10 b).length := by
  by_cases ha : a = 0
  · subst ha
    simp only [dig10, if_pos rfl]
    by_cases hb : b = 0
    · simp [hb]
    · simp only [if_neg hb, List.length_singleton]
      have hne : Nat.digits 10 b ≠ [] := Nat.digits_ne_nil_iff_ne_zero.mpr hb
      cases hd : Nat.digits 10 b with
      | nil => exact absurd hd hne
      | cons x xs => simp
  · have hb : b ≠ 0 := by omega
    simp only [dig10, if_neg ha, if_neg hb]
    exact Nat.le_digits_len_le 10 a b hab

theorem decDigits_len_mono {a b : Nat} (hab : a ≤ b) :
    (decDigits a).length ≤ (decDigits b).length := by
  rw [decDigits_eq_dig10, decDigits_eq_dig10]
  simpa using dig10_len_mono hab

theorem genKey_inj {a b : Nat} (h : genKey a = genKey b) : a = b := by
  apply decDigits_inj
  simp only [genKey] at h
  exact List.append_cancel_left h

theorem genKey_strict_lt {a b : Nat} (h : strictPfxB (genKey a) (genKey b) = true) :
    a < b := by
  simp only [strictPfxB, Bool.and_eq_true, decide_eq_true_eq] at h
  obtain ⟨hpf, hne⟩ := h
  have hp : genKey a <+: genKey b := List.isPrefixOf_iff_prefix.mp hpf
  obtain ⟨t, ht⟩ := hp
  simp only [genKey, List.append_assoc] at ht
  have hd : decDigits a <+: decDigits b := ⟨t, List.append_cancel_left ht⟩
  have hlen : (decDigits a).length ≤ (decDigits b).length := hd.length_le
  have hnei : decDigits a ≠ decDigits b := by
    intro he
    exact hne (by simp [genKey, he])
  have hlt : (decDigits a).length < (decDigits b).length :=
    lt_of_le_of_ne hlen (fun hl => hnei (hd.eq_of_length hl))
  by_contra hab
  have hba : b ≤ a := by omega
  have := decDigits_len_mono hba
  omega

end MKVS

namespace MKVS

theorem map_fst_pair : ∀ l : List Nat,
    (l.map (fun i => (genKey i, genValue i))).map Prod.fst = l.map genKey := by
  intro l
  induction l with
  | nil => rfl
  | cons x xs ih => simp [ih]

theorem kvs1000_keys : kvs1000.map Prod.fst = (upFrom 0 1000).map genKey :=
  map_fst_pair (upFrom 0 1000)

theorem mem_kvs_keys {x : Bytes} (hx : x ∈ kvs1000.map Prod.fst) :
    ∃ j, j < 1000 ∧ x = genKey j := by
  rw [kvs1000_keys] at hx
  obtain ⟨j, hj, rfl⟩ := List.mem_map.mp hx
  have hb := upFrom_mem 1000 0 j hj
  exact ⟨j, by omega, rfl⟩

/-- Fetching the keys `genKey i, …, genKey (i+n-1)` in order through a remote
tree none of whose cached keys has index `≥ i` issues exactly `n` SyncGets and
no other sync verb. -/
theorem getAll_count : ∀ (n i : Nat) (rt : RemoteT), rt.kvs = kvs1000 →
    (∀ x ∈ rt.resolved, ∃ m, m < i ∧ x = genKey m) →
    (rt.getAll ((upFrom i n).map genKey)).nGet = rt.nGet + n ∧
    (rt.getAll ((upFrom i n).map genKey)).nPrefixes = rt.nPrefixes ∧
    (rt.getAll ((upFrom i n).map genKey)).nIterate = rt.nIterate ∧
    (rt.getAll ((upFrom i n).map genKey)).kvs = kvs1000 := by
  intro n
  induction n with
  | zero => intro i rt hkvs hres; exact ⟨rfl, rfl, rfl, hkvs⟩
  | succ n ih =>
      intro i rt hkvs hres
      have hnot : genKey i ∉ rt.resolved := by
        intro hmem
        obtain ⟨m, hm, he⟩ := hres (genKey i) hmem
        have hie : i = m := genKey_inj he
        omega
      have hget : rt.get (genKey i) = (lookupKV rt.kvs (genKey i), rt.syncGet (genKey i)) := by
        simp [RemoteT.get, hnot]
      have hstep : rt.getAll ((upFrom i (n + 1)).map genKey) =
          (rt.syncGet (genKey i)).getAll ((upFrom (i + 1) n).map genKey) := by
        show ((rt.get (genKey i)).2).getAll ((upFrom (i + 1) n).map genKey) =
          (rt.syncGet (genKey i)).getAll ((upFrom (i + 1) n).map genKey)
        rw [hget]
      rw [hstep]
      have hres' : ∀ x ∈ (rt.syncGet (genKey i)).resolved, ∃ m, m < i + 1 ∧ x = genKey m := by
        intro x hx
        simp only [RemoteT.syncGet, List.mem_cons, List.mem_append] at hx
        rcases hx with rfl | hx | hx
        · exact ⟨i, by omega, rfl⟩
        · obtain ⟨hxk, hpf⟩ := List.mem_filter.mp hx
          rw [hkvs] at hxk
          obtain ⟨j, hj, rfl⟩ := mem_kvs_keys hxk
          have hji := genKey_strict_lt hpf
          exact ⟨j, by omega, rfl⟩
        · obtain ⟨m, hm, he⟩ := hres x hx
          exact ⟨m, by omega, he⟩
      obtain ⟨h1, h2, h3, h4⟩ := ih (i + 1) (rt.syncGet (genKey i)) hkvs hres'
      refine ⟨?_, ?_, ?_, h4⟩
      · rw [h1]
        show rt.nGet + 1 + n = rt.nGet + (n + 1)
        omega
      · rw [h2]
        rfl
      · rw [h3]
        rfl

/-- Fetching keys that are all already cached leaves the remote tree unchanged:
no sync verb is issued. -/
theorem getAll_resolved_id : ∀ (ks : List Bytes) (rt : RemoteT),
    (∀ k ∈ ks, k ∈ rt.resolved) → rt.getAll ks = rt := by
  intro ks
  induction ks with
  | nil => intro rt _; rfl
  | cons k ks ih =>
      intro rt h
      have hk : k ∈ rt.resolved := h k (List.mem_cons_self k ks)
      have hget : rt.get k = (lookupKV rt.kvs k, rt) := by
        simp [RemoteT.get, hk]
      show ((rt.get k).2).getAll ks = rt
      rw [hget]
      exact ih rt (fun x hx => h x (List.mem_cons_of_mem k hx))

theorem key_pfx_genKey (j : Nat) : ([107, 101, 121] : Bytes).isPrefixOf (genKey j) = true :=
  List.isPrefixOf_iff_prefix.mpr ⟨32 :: decDigits j, rfl⟩

/-- After PrefetchPrefixes(["key"], 1000) on the fresh remote tree, exactly the
1000 generated keys are cached. -/
theorem prefetch_resolved :
    (freshRemote.prefetchPrefixes [[107, 101, 121]] 1000).resolved =
      (upFrom 0 1000).map genKey := by
  show ((kvs1000.map Prod.fst).filter
      (fun k => [([107, 101, 121] : Bytes)].any (fun q => q.isPrefixOf k))).take 1000
        ++ [] = (upFrom 0 1000).map genKey
  rw [List.append_nil]
  have hfil : (kvs1000.map Prod.fst).filter
      (fun k => [([107, 101, 121] : Bytes)].any (fun q => q.isPrefixOf k)) =
      kvs1000.map Prod.fst := by
    apply List.filter_eq_self.mpr
    intro x hx
    obtain ⟨j, hj, rfl⟩ := mem_kvs_keys hx
    simp only [List.any_cons, List.any_nil, Bool.or_false]
    exact key_pfx_genKey j
  rw [hfil, kvs1000_keys]
  apply List.take_of_length_le
  rw [List.length_map]
  exact le_of_eq (upFrom_len 1000 0)

/-- C7: fetching all 1000 keys of the 1000-key tree through a fresh remote
tree over its root issues exactly 1000 SyncGet calls and 0 SyncGetPrefixes /
SyncIterate calls; and on a fresh remote tree, PrefetchPrefixes(["key"], 1000)
issues exactly one SyncGetPrefixes, after which reading every key issues 0
additional SyncGet (and no other verb). -/
theorem claim_C7 :
    ((freshRemote.getAll ((upFrom 0 1000).map genKey)).nGet = 1000 ∧
     (freshRemote.getAll ((upFrom 0 1000).map genKey)).nPrefixes = 0 ∧
     (freshRemote.getAll ((upFrom 0 1000).map genKey)).nIterate = 0) ∧
    ((freshRemote.prefetchPrefixes [[107, 101, 121]] 1000).nPrefixes = 1 ∧
     ((freshRemote.prefetchPrefixes [[107, 101, 121]] 1000).getAll
        ((upFrom 0 1000).map genKey)).nGet = 0 ∧
     ((freshRemote.prefetchPrefixes [[107, 101, 121]] 1000).getAll
        ((upFrom 0 1000).map genKey)).nPrefixes = 1 ∧
     ((freshRemote.prefetchPrefixes [[107, 101, 121]] 1000).getAll
        ((upFrom 0 1000).map genKey)).nIterate = 0) := by
  have hcov : ∀ k ∈ (upFrom 0 1000).map genKey,
      k ∈ (freshRemote.prefetchPrefixes [[107, 101, 121]] 1000).resolved := by
    rw [prefetch_resolved]
    exact fun k hk => hk
  have hid := getAll_resolved_id ((upFrom 0 1000).map genKey)
    (freshRemote.prefetchPrefixes [[107, 101, 121]] 1000) hcov
  obtain ⟨h1, h2, h3, _⟩ := getAll_count 1000 0 freshRemote rfl
    (fun x hx => absurd hx (List.not_mem_nil x))
  exact ⟨⟨h1, h2, h3⟩, rfl, by rw [hid]; rfl, by rw [hid]; rfl, by rw [hid]; rfl⟩

end MKVS
